import Mathlib

/-!
# Verification of the Unearthed Obsidian plugin's sync-and-merge engine

This development gives a shallow embedding of the plugin's merge engine
(`applyData`, `applyTags`, `appendToDailyNote`, `toSafeFileName`, the
template renderers and the content-identity extraction scanners) and proves
or refutes the specification's claims about it.

Strings are modelled as `List Char` (`Str`).  JavaScript string methods and
the concrete regular expressions used by the code are embedded as executable
Lean functions:

* `String.prototype.replace(stringPattern, r)` replaces only the first
  occurrence (`replaceFirstSub`); `replace(new RegExp(p, "g"), r)` on a
  literal pattern replaces every occurrence left to right
  (`replaceAllSub`).  Both expand the `$`-escapes of the replacement value
  against each match (`expandRep`): `$$`, `$&`, dollar-backquote and
  dollar-apostrophe; `$n` digit forms stay literal because no pattern in
  this program has capture groups.
* `/>\s(.+?)\n/g` and the hidden-marker regexes are embedded as explicit
  scanners that follow the regex engine's leftmost-match, lazy-quantifier
  and `lastIndex` advancement semantics (`.` never matches a line
  terminator; a failed attempt advances the scan by one character, a
  successful match resumes after its end).
* `trim` and `\s` match the full JS whitespace set (`jsWs`: ASCII
  whitespace, NBSP, BOM, LS, PS and the Unicode space separators
  U+1680, U+2000-U+200A, U+202F, U+205F, U+3000).

Bounded recursion that JavaScript expresses with index jumps is embedded
with an explicit fuel argument initialised to the string length, which is
always sufficient because every step consumes at least one character.
-/

/-- Strings as lists of characters. -/
abbrev Str := List Char

/-- Literal string to `Str`. -/
def str (s : String) : Str := s.data

/-- The reserved invisible marker character `​` (zero-width space). -/
def hiddenChar : Char := '​'

/-- JavaScript line terminators (the characters `.` never matches without
the `s` flag): LF, CR, LS, PS. -/
def isLineTerm (c : Char) : Bool :=
  c = '\n' || c = '\r' || c = ' ' || c = ' '

/-- JavaScript `\s` / `trim` whitespace: ASCII whitespace, NBSP, BOM, the
line terminators LS and PS, and the remaining Unicode space separators
(OGHAM SPACE MARK, the EN QUAD..HAIR SPACE range, NNBSP, MMSP and the
ideographic space).  U+200B, the marker character, is not whitespace. -/
def jsWs (c : Char) : Bool :=
  c = ' ' || c = '\t' || c = '\n' || c = '\r' || c = '\x0b' || c = '\x0c' ||
  c = ' ' || c = '﻿' || c = ' ' || c = ' ' ||
  c = ' ' || (' ' ≤ c ∧ c ≤ ' ') || c = ' ' || c = ' ' ||
  c = '　'

/-- JavaScript `String.prototype.trim`. -/
def jsTrim (s : Str) : Str :=
  ((s.dropWhile jsWs).reverse.dropWhile jsWs).reverse

/-- `pat` is a prefix of `s` (JS `startsWith`, also the regex-at-position
primitive used by the scanners below). -/
def hasPre : Str → Str → Bool
  | [], _ => true
  | _ :: _, [] => false
  | p :: ps, c :: cs => p = c && hasPre ps cs

/-- JS `String.prototype.includes`: `pat` occurs contiguously in `s`. -/
def subStr (pat : Str) : Str → Bool
  | [] => pat.isEmpty
  | c :: rest => hasPre pat (c :: rest) || subStr pat rest

/-- JS `String.prototype.endsWith`. -/
def strEndsWith (s pat : Str) : Bool := hasPre pat.reverse s.reverse

/-- JS `GetSubstitution` for a match with no capture groups: in the
replacement value, `$$` yields a dollar sign, `$&` the matched text, a
dollar followed by a backquote the text before the match, and a dollar
followed by an apostrophe the text after the match; any other
`$`-sequence (including the `$n` digit forms, since no pattern in this
program has capture groups) stays literal. -/
def expandRep (matched before after : Str) : Str → Str
  | [] => []
  | c :: rest =>
    if c = '$' then
      match rest with
      | [] => ['$']
      | d :: rest2 =>
        if d = '$' then '$' :: expandRep matched before after rest2
        else if d = '&' then matched ++ expandRep matched before after rest2
        else if d = '\x60' then before ++ expandRep matched before after rest2
        else if d = '\x27' then after ++ expandRep matched before after rest2
        else '$' :: expandRep matched before after (d :: rest2)
    else c :: expandRep matched before after rest

/-- The scan of a first-occurrence replacement: JS `s.replace(pat, rep)`
with a string pattern, `$`-expanding the replacement against the match;
`before` accumulates the text left of the scan position.  An empty
pattern matches before the string, as in JS. -/
def replaceFirstGo (pat rep : Str) : Str → Str → Str
  | before, [] => if pat = [] then expandRep [] before [] rep else []
  | before, c :: rest =>
    if hasPre pat (c :: rest) then
      expandRep pat before ((c :: rest).drop pat.length) rep ++
        (c :: rest).drop pat.length
    else c :: replaceFirstGo pat rep (before ++ [c]) rest

/-- First occurrence replacement: JS `s.replace(pat, rep)` with a string
pattern, including `$`-escape expansion of the replacement value. -/
def replaceFirstSub (pat rep t : Str) : Str := replaceFirstGo pat rep [] t

/-- The value of a first-occurrence replacement whenever the replacement
value holds no dollar sign (raw insertion; a proof device, not a source
function). -/
def replaceFirstRaw (pat rep : Str) : Str → Str
  | [] => if pat = [] then rep else []
  | c :: rest =>
    if hasPre pat (c :: rest) then rep ++ (c :: rest).drop pat.length
    else c :: replaceFirstRaw pat rep rest

/-- Fuel-indexed global replacement of a literal pattern,
JS `s.replace(new RegExp(escape(pat), "g"), rep)`, `$`-expanding the
replacement at every match; `before` accumulates the already-scanned
prefix of the original string. -/
def replaceAllF (pat rep : Str) : Nat → Str → Str → Str
  | 0, _, s => s
  | _ + 1, _, [] => []
  | f + 1, before, c :: rest =>
    if pat ≠ [] ∧ hasPre pat (c :: rest) then
      expandRep pat before ((c :: rest).drop pat.length) rep ++
        replaceAllF pat rep f (before ++ pat) ((c :: rest).drop pat.length)
    else c :: replaceAllF pat rep f (before ++ [c]) rest

/-- Global replacement of a literal nonempty pattern, left to right,
non-overlapping, with `$`-escape expansion. -/
def replaceAllSub (pat rep s : Str) : Str := replaceAllF pat rep s.length [] s

/-- Fuel-indexed: drop consecutive leading copies of `rep`. -/
def dropRepsF (rep : Str) : Nat → Str → Str
  | 0, s => s
  | f + 1, s => if rep ≠ [] ∧ hasPre rep s then dropRepsF rep f (s.drop rep.length) else s

/-- Fuel-indexed collapse of runs of the sequence `rep` to a single copy:
JS `s.replace(new RegExp(escape(rep) + "+", "g"), rep)`. -/
def collapseRunsF (rep : Str) : Nat → Str → Str
  | 0, s => s
  | _ + 1, [] => []
  | f + 1, c :: rest =>
    if rep ≠ [] ∧ hasPre rep (c :: rest) then
      rep ++ collapseRunsF rep f (dropRepsF rep (c :: rest).length (c :: rest))
    else c :: collapseRunsF rep f rest

/-- Collapse runs of the sequence `rep` to one copy. -/
def collapseRunsSub (rep s : Str) : Str := collapseRunsF rep s.length s

/-- Strip leading and trailing runs of the sequence `rep`:
JS `s.replace(new RegExp("^" + e + "+|" + e + "+$", "g"), "")`. -/
def stripEndRuns (rep s : Str) : Str :=
  let a := dropRepsF rep s.length s
  (dropRepsF rep.reverse a.length a.reverse).reverse

/-- Collapse whitespace runs to a single space:
JS `s.replace(/\s+/g, " ")`. `prevWs` records whether the previous
character was whitespace. -/
def collapseWsGo (prevWs : Bool) : Str → Str
  | [] => []
  | c :: rest =>
    if jsWs c then
      if prevWs then collapseWsGo true rest else ' ' :: collapseWsGo true rest
    else c :: collapseWsGo false rest

/-- JS `s.replace(/\s+/g, " ")`. -/
def collapseWs (s : Str) : Str := collapseWsGo false s

/-- The reserved filename characters `\ / : * ? " < > |`. -/
def isInvalidFileChar (c : Char) : Bool :=
  c = '\\' || c = '/' || c = ':' || c = '"' || c = '*' || c = '?' ||
  c = '<' || c = '>' || c = '|'

/-- `firstLetterUppercase` from the source: first character uppercased,
remainder lowercased (ASCII case mapping, as exercised here). -/
def firstLetterUppercase : Str → Str
  | [] => []
  | c :: rest => Char.toUpper c :: rest.map Char.toLower

/-! ## Data model and settings -/

/-- The `quoteColorMode` setting: `"none" | "background" | "text"`. -/
inductive QuoteColorMode where
  | cmNone
  | cmBackground
  | cmText
deriving DecidableEq

/-- The `customColors` setting (one hex string per highlight color name). -/
structure CustomColors where
  yellow : Str
  blue : Str
  pink : Str
  orange : Str

/-- The plugin settings relevant to the merge engine.  `momentFormat`
stands for the external `window.moment(value).format(pattern)` collaborator
(the date library is outside the embedded subsystem); `none` as the pattern
models formatting with an `undefined` format argument. -/
structure Settings where
  unearthedApiKey : Str
  secret : Str
  dailyReflectionDateFormat : Str
  dailyReflectionLocation : Str
  quoteTemplate : Str
  sourceTemplate : Str
  sourceFilenameTemplate : Str
  sourceFilenameLowercase : Bool
  sourceFilenameReplaceSpaces : Str
  dailyReflectionTemplate : Str
  rootFolder : Str
  quoteColorMode : QuoteColorMode
  customColors : CustomColors
  momentFormat : Str → Option Str → Str

/-- `UnearthedQuote`. -/
structure Quote where
  id : Str
  content : Str
  note : Str
  color : Str
  location : Str
  sourceId : Str
  userId : Str
  createdAt : Str

/-- `UnearthedData` (a source/book record with its quotes). -/
structure Source where
  id : Str
  title : Str
  subtitle : Str
  author : Str
  imageUrl : Str
  type : Str
  origin : Str
  userId : Str
  ignored : Bool
  createdAt : Str
  asin : Str
  quotes : List Quote

/-- `UnearthedTagData`. -/
structure Tag where
  id : Str
  userId : Str
  title : Str
  description : Str
  createdAt : Str
  sourceIds : List Str

/-- `DailyReflection`. -/
structure DailyReflection where
  type : Str
  source : Str
  sourceId : Str
  author : Str
  quote : Str
  note : Str
  location : Str
  color : Str

/-- `SafeFileNameOptions` (per-call overrides of the settings-derived
defaults). -/
structure SafeFileNameOptions where
  replacement : Option Str := none
  lowercase : Option Bool := none
  trimSpaces : Option Bool := none
  collapseSpaces : Option Bool := none

/-- `DEFAULT_COLOR_MAP`, in `Object.keys` insertion order. -/
def DEFAULT_COLOR_MAP : List (Str × Str) :=
  [(str "yellow", str "#ffd700"), (str "blue", str "#4682b4"),
   (str "pink", str "#ff69b4"), (str "orange", str "#ffa500")]

/-- `settings.customColors[colorKey]` for the four known keys. -/
def customColor (cc : CustomColors) (key : Str) : Str :=
  if key = str "yellow" then cc.yellow
  else if key = str "blue" then cc.blue
  else if key = str "pink" then cc.pink
  else if key = str "orange" then cc.orange
  else []

/-- The color-resolution loop shared by the quote renderers: the first key
of `DEFAULT_COLOR_MAP` contained in the lowercased color name wins; a
truthy custom color overrides the default (`custom || default`); the empty
string means no key matched. -/
def findColorHex (cc : CustomColors) : List (Str × Str) → Str → Str
  | [], _ => []
  | (key, defHex) :: rest, colorLower =>
    if subStr key colorLower then
      (if customColor cc key ≠ [] then customColor cc key else defHex)
    else findColorHex cc rest colorLower

/-- `colorHex` as computed from a quote's color name. -/
def colorHexFor (s : Settings) (color : Str) : Str :=
  findColorHex s.customColors DEFAULT_COLOR_MAP (color.map Char.toLower)

/-! ## `toSafeFileName` -/

/-- `toSafeFileName` from the source.  The sequential pipeline: optional
lowercasing, reserved-character replacement, control-character replacement,
whitespace-run collapsing, trimming, whitespace replacement, collapse of
replacement-sequence runs, and stripping of leading/trailing replacement
runs.  (The non-string input check is unrepresentable here; the function is
total on strings, as in the source.) -/
def toSafeFileName (s : Settings) (strIn : Str)
    (options : SafeFileNameOptions := {}) : Str :=
  let repl := match options.replacement with
    | some r => r
    | none =>
      if s.sourceFilenameReplaceSpaces ≠ [] then s.sourceFilenameReplaceSpaces
      else str " "
  let lower := options.lowercase.getD s.sourceFilenameLowercase
  let collapseSp := options.collapseSpaces.getD true
  let trimSp := options.trimSpaces.getD true
  let r1 := if lower then strIn.map Char.toLower else strIn
  let r2 := r1.flatMap fun c => if isInvalidFileChar c then repl else [c]
  let r3 := r2.flatMap fun c =>
    if c.toNat < 32 ∨ c.toNat = 127 then repl else [c]
  let r4 := if collapseSp then collapseWs r3 else r3
  let r5 := if trimSp then jsTrim r4 else r4
  let r6 := r5.flatMap fun c => if jsWs c then repl else [c]
  let r7 := collapseRunsSub repl r6
  stripEndRuns repl r7

/-! ## Content-identity extraction scanners -/

/-- Fuel-indexed scanner for `/>\s(.+?)\n/g` (`extractExistingQuotes`).
At a `>` followed by a `\s` character, the lazy capture is the maximal run
of non-line-terminator characters, which must be nonempty and be followed
by a literal `\n`; the match yields the trimmed capture and scanning
resumes after the `\n`.  A failed attempt advances the scan by one
character. -/
def extractExistingQuotesF : Nat → Str → List Str
  | 0, _ => []
  | _ + 1, [] => []
  | f + 1, ch :: rest =>
    if ch = '>' then
      match rest with
      | [] => []
      | w :: rest2 =>
        if jsWs w then
          if (rest2.takeWhile fun x => !isLineTerm x) ≠ [] ∧
              (rest2.drop (rest2.takeWhile fun x => !isLineTerm x).length).head?
                = some '\n' then
            jsTrim (rest2.takeWhile fun x => !isLineTerm x) ::
              extractExistingQuotesF f
                ((rest2.drop
                  (rest2.takeWhile fun x => !isLineTerm x).length).drop 1)
          else extractExistingQuotesF f rest
        else extractExistingQuotesF f rest
    else extractExistingQuotesF f rest

/-- `extractExistingQuotes` from the source (fixed-layout mode). -/
def extractExistingQuotes (fileContent : Str) : List Str :=
  extractExistingQuotesF fileContent.length fileContent

/-- Fuel-indexed scanner for the marker regex
`new RegExp(`${HIDDEN_CHAR}(.+?)${HIDDEN_CHAR}`, "g")`.
At a marker character the lazy capture runs to the next marker at offset
at least one (the first captured character may itself be a marker); all
captured characters must be non-line-terminators. -/
def extractExistingQuotesUsingTemplateF : Nat → Str → List Str
  | 0, _ => []
  | _ + 1, [] => []
  | f + 1, ch :: rest =>
    if ch = hiddenChar then
      match rest with
      | [] => []
      | d :: rest2 =>
        if ((d :: rest2.takeWhile fun x => x ≠ hiddenChar).all
              fun x => !isLineTerm x) ∧
            ((d :: rest2).drop
              (d :: rest2.takeWhile fun x => x ≠ hiddenChar).length).head?
              = some hiddenChar then
          jsTrim (d :: rest2.takeWhile fun x => x ≠ hiddenChar) ::
            extractExistingQuotesUsingTemplateF f
              (((d :: rest2).drop
                (d :: rest2.takeWhile fun x => x ≠ hiddenChar).length).drop 1)
        else extractExistingQuotesUsingTemplateF f rest
    else extractExistingQuotesUsingTemplateF f rest

/-- `extractExistingQuotesUsingTemplate` from the source (marker mode). -/
def extractExistingQuotesUsingTemplate (fileContent : Str) : List Str :=
  extractExistingQuotesUsingTemplateF fileContent.length fileContent

/-- The dotall marker regex `new RegExp(`${H}(.*?)${H}`, "gs")` matches
iff the text holds two marker characters (the capture may be empty and
crosses line breaks), i.e. iff the marker count is at least two. -/
def hasHiddenPair (s : Str) : Bool :=
  decide (2 ≤ s.countP fun c => c = hiddenChar)

/-- `extractExistingDailyReflectionUsingTemplate` from the source. -/
def extractExistingDailyReflectionUsingTemplate (fileContent template : Str) :
    Bool :=
  if template = [] then subStr (str "## Daily Reflection") fileContent
  else hasHiddenPair fileContent

/-! ## Vault model

The Obsidian vault collaborator: files as an association list from full
slash-separated path to content, folders as a list of full paths without a
trailing slash.  `vault.getAbstractFileByPath` on a file path is `lookupFile`;
`vault.modify`/`vault.create` is `vaultWrite`; `vault.createFolder` is
`ensureFolder`; `vault.adapter.list` is `listDir`. -/

structure Vault where
  files : List (Str × Str)
  folders : List Str
deriving DecidableEq

/-- Association-list lookup (first match). -/
def lookupFile : List (Str × Str) → Str → Option Str
  | [], _ => none
  | (q, c) :: rest, p => if q = p then some c else lookupFile rest p

/-- Read a file's content, `none` when no file exists at the path. -/
def readFile (v : Vault) (p : Str) : Option Str := lookupFile v.files p

/-- Write `content` at `p`: modify in place when the file exists
(`instanceof TFile`), create (append) otherwise. -/
def vaultWrite (v : Vault) (p content : Str) : Vault :=
  if (readFile v p).isSome then
    { v with files := v.files.map fun e => if e.1 = p then (p, content) else e }
  else { v with files := v.files ++ [(p, content)] }

/-- Normalize a folder path by dropping one trailing slash (the adapter
accepts and normalizes trailing slashes). -/
def normalizePath (p : Str) : Str :=
  if strEndsWith p (str "/") then p.dropLast else p

/-- `createFolder` guarded by the existence check of the source. -/
def ensureFolder (v : Vault) (p : Str) : Vault :=
  let n := normalizePath p
  if n ∈ v.folders then v else { v with folders := v.folders ++ [n] }

/-- The parent directory of a path (text before the last slash). -/
def parentOf (p : Str) : Str :=
  (((p.reverse.dropWhile fun c => c ≠ '/')).drop 1).reverse

/-- An `adapter.list` result. -/
structure Listing where
  files : List Str
  folders : List Str

/-- `vault.adapter.list dir`: the full paths of the files and folders whose
parent is `dir`. -/
def listDir (v : Vault) (dir : Str) : Listing :=
  let d := normalizePath dir
  { files := (v.files.map Prod.fst).filter fun p => parentOf p = d
    folders := v.folders.filter fun p => parentOf p = d }

/-! ## Template rendering -/

/-- The `{{content}}` placeholder literal. -/
def pcContent : Str := str "\x7b\x7bcontent\x7d\x7d"

/-- The `{{note}}` placeholder literal. -/
def pcNote : Str := str "\x7b\x7bnote\x7d\x7d"

/-- The `{{location}}` placeholder literal. -/
def pcLocation : Str := str "\x7b\x7blocation\x7d\x7d"

/-- The `{{color}}` placeholder literal. -/
def pcColor : Str := str "\x7b\x7bcolor\x7d\x7d"

/-- `SOURCE_TEMPLATE_OPTIONS`, in declaration order. -/
def SOURCE_TEMPLATE_OPTIONS : List Str :=
  [str "title", str "subtitle", str "author", str "type", str "origin",
   str "asin", str "ignored", str "createdAt"]

/-- `String(item[key])` for a template option key. -/
def getField (item : Source) (key : Str) : Str :=
  if key = str "title" then item.title
  else if key = str "subtitle" then item.subtitle
  else if key = str "author" then item.author
  else if key = str "type" then item.type
  else if key = str "origin" then item.origin
  else if key = str "asin" then item.asin
  else if key = str "ignored" then (if item.ignored then str "true" else str "false")
  else if key = str "createdAt" then item.createdAt
  else []

/-- The filename reduce from `syncData`/`applyData`: every key's
`{{key}}` occurrences are replaced globally (plain `g` regex, no
`createdAt` special case). -/
def renderFileName (s : Settings) (item : Source) : Str :=
  SOURCE_TEMPLATE_OPTIONS.foldl
    (fun acc key =>
      replaceAllSub (str "\x7b\x7b" ++ key ++ str "\x7d\x7d") (getField item key) acc)
    s.sourceFilenameTemplate

/-- Word characters for `\w`. -/
def isWordChar (c : Char) : Bool :=
  ('a' ≤ c ∧ c ≤ 'z') ∨ ('A' ≤ c ∧ c ≤ 'Z') ∨ ('0' ≤ c ∧ c ≤ '9') ∨ c = '_'

/-- The literal `{{createdAt`. -/
def pcCreatedAtOpen : Str := str "\x7b\x7bcreatedAt"

/-- The second alternation branch `\|date:\w*-\w*-\w*` followed by `}}`
of the `createdAt` regex, at the given position.  Both `-` separators and
the closing braces are literal, so the greedy `\w*` runs are forced. -/
def matchDateBranch (rest : Str) : Option (Str × Str) :=
  if hasPre (str "|date:") rest then
    let r0 := rest.drop 6
    let w1 := r0.takeWhile isWordChar
    match r0.drop w1.length with
    | '-' :: r2 =>
      let w2 := r2.takeWhile isWordChar
      match r2.drop w2.length with
      | '-' :: r4 =>
        let w3 := r4.takeWhile isWordChar
        let r5 := r4.drop w3.length
        if hasPre (str "\x7d\x7d") r5 then
          some (str "|date:" ++ w1 ++ str "-" ++ w2 ++ str "-" ++ w3 ++
                str "\x7d\x7d", r5.drop 2)
        else none
      | _ => none
    | _ => none
  else none

/-- One attempt of `/{{createdAt(\w*|\|date:\w*-\w*-\w*)}}/` at the start
of `s`: the matched text and the remainder after it.  The first alternation
branch (`\w*` then `}}`) is tried first; since `}` is not a word character
the greedy run cannot backtrack into a match, so the branch succeeds only
when `}}` follows the maximal word run. -/
def createdAtAt (s : Str) : Option (Str × Str) :=
  if hasPre pcCreatedAtOpen s then
    let rest := s.drop pcCreatedAtOpen.length
    let w := rest.takeWhile isWordChar
    let r1 := rest.drop w.length
    if hasPre (str "\x7d\x7d") r1 then
      some (pcCreatedAtOpen ++ w ++ str "\x7d\x7d", r1.drop 2)
    else
      (matchDateBranch rest).map fun b => (pcCreatedAtOpen ++ b.1, b.2)
  else none

/-- Fuel-indexed global scan collecting all `createdAt` placeholder
matches (`acc.match(/{{createdAt(\w*|\|date:\w*-\w*-\w*)}}/g)`). -/
def createdAtMatchesF : Nat → Str → List Str
  | 0, _ => []
  | _ + 1, [] => []
  | f + 1, ch :: rest =>
    match createdAtAt (ch :: rest) with
    | some (m, rem) => m :: createdAtMatchesF f rem
    | none => createdAtMatchesF f rest

/-- All matches of the `createdAt` placeholder regex, in order
(`[]` models a `null` result of `String.prototype.match`). -/
def createdAtMatches (s : Str) : List Str := createdAtMatchesF s.length s

/-- Fuel-indexed suffix after the first occurrence of `pat`. -/
def afterFirstSeqF (pat : Str) : Nat → Str → Option Str
  | 0, _ => none
  | _ + 1, [] => if pat = [] then some [] else none
  | f + 1, c :: rest =>
    if hasPre pat (c :: rest) then some ((c :: rest).drop pat.length)
    else afterFirstSeqF pat f rest

/-- Fuel-indexed lazy capture `(.+?)` up to the literal `stop`. -/
def captureUntilF (stop : Str) : Nat → Str → Option Str
  | 0, _ => none
  | _ + 1, [] => none
  | f + 1, ch :: rest =>
    if isLineTerm ch then none
    else if hasPre stop rest then some [ch]
    else (captureUntilF stop f rest).map fun t => ch :: t

/-- The capture of `/\|date:(.+?)}}/` on a matched placeholder: the format
pattern between `|date:` and the first following `}}` (`none` models an
absent capture, passed to the date library as `undefined`). -/
def extractDateFmt (m : Str) : Option Str :=
  (afterFirstSeqF (str "|date:") m.length m).bind fun rest =>
    captureUntilF (str "\x7d\x7d") rest.length rest

/-- The seven plain (non-`createdAt`) key substitutions of the source
template reduce, each a global replacement. -/
def renderSourceNonDateKeys (item : Source) (template : Str) : Str :=
  [str "title", str "subtitle", str "author", str "type", str "origin",
   str "asin", str "ignored"].foldl
    (fun acc key =>
      replaceAllSub (str "\x7b\x7b" ++ key ++ str "\x7d\x7d") (getField item key) acc)
    template

/-- The `createdAt` step of the source template reduce when matches exist:
each matched placeholder is replaced (first occurrence) by the
date-formatted value when it carries `|date:`, else by the raw value. -/
def processCreatedAt (s : Settings) (item : Source) (acc : Str) : Str :=
  (createdAtMatches acc).foldl
    (fun a m =>
      if subStr (str "|date:") m then
        replaceFirstSub m (s.momentFormat item.createdAt (extractDateFmt m)) a
      else replaceFirstSub m item.createdAt a)
    acc

/-- The full source-template reduce.  The reduce callback returns
`undefined` (here `none`) on its final `createdAt` iteration when the
accumulated text holds no `createdAt` placeholder, because that branch has
no `return` statement. -/
def renderSourceTemplate (s : Settings) (item : Source) : Option Str :=
  let t7 := renderSourceNonDateKeys item s.sourceTemplate
  if createdAtMatches t7 = [] then none else some (processCreatedAt s item t7)

/-- The header (`fileContent`) of a source file: the fixed fallback layout,
overridden by the rendered source template (with `?? ""` applied to the
reduce result) when a source template is configured. -/
def sourceHeader (s : Settings) (item : Source) : Str :=
  let fixed := str "# " ++ item.title ++ str "\n\n**Author:** [[" ++
    item.author ++ str "]]\n\n**Source:** " ++
    firstLetterUppercase item.origin ++ str "\n\n"
  if s.sourceTemplate ≠ [] then (renderSourceTemplate s item).getD [] else fixed

/-! ## The source merge engine (`applyData`) -/

/-- The styled content of a quote in fixed-layout mode (no quote template):
the blockquote line, optionally wrapped in a color `div`/`span` when the
color mode is active, the quote names a color, and a hex value resolves. -/
def styledContentFixed (s : Settings) (q : Quote) : Str :=
  let base := str "> " ++ q.content
  if s.quoteColorMode ≠ QuoteColorMode.cmNone ∧ q.color ≠ [] then
    let hex := colorHexFor s q.color
    if hex ≠ [] then
      match s.quoteColorMode with
      | QuoteColorMode.cmBackground =>
        str "> <div style=\"background-color: " ++ hex ++
          str "; padding: 12px;\">" ++ q.content ++ str "</div>"
      | QuoteColorMode.cmText =>
        str "> <span style=\"color: " ++ hex ++ str ";\">" ++ q.content ++
          str "</span>"
      | QuoteColorMode.cmNone => base
    else base
  else base

/-- The marker-wrapped content of a quote in template mode
(`hiddenContent`), optionally wrapped in a color `div`/`span`. -/
def styledContentHidden (s : Settings) (q : Quote) : Str :=
  let hidden := hiddenChar :: (q.content ++ [hiddenChar])
  if s.quoteColorMode ≠ QuoteColorMode.cmNone ∧ q.color ≠ [] then
    let hex := colorHexFor s q.color
    if hex ≠ [] then
      match s.quoteColorMode with
      | QuoteColorMode.cmBackground =>
        str "<div style=\"background-color: " ++ hex ++
          str "; padding: 12px;\">" ++ hidden ++ str "</div>"
      | QuoteColorMode.cmText =>
        str "<span style=\"color: " ++ hex ++ str ";\">" ++ hidden ++
          str "</span>"
      | QuoteColorMode.cmNone => hidden
    else hidden
  else hidden

/-- The fixed-layout block appended for a not-yet-present quote. -/
def fixedQuoteBlock (s : Settings) (q : Quote) : Str :=
  str "---\n\n" ++ styledContentFixed s q ++ str "\n\n" ++
  (if q.note ≠ [] then str "**Note:** " ++ q.note ++ str "\n\n" else []) ++
  str "**Location:** " ++ q.location ++ str "\n\n" ++
  (if q.color ≠ [] then str "**Color:** " ++ q.color ++ str "\n\n" else [])

/-- `gotTemplate`: the quote template with `{{content}}`, `{{note}}`,
`{{location}}` and `{{color}}` substituted in that order, each by a
first-occurrence string replacement; falsy note/color values substitute the
empty string. -/
def renderQuoteTemplate (s : Settings) (q : Quote) : Str :=
  let t1 := replaceFirstSub pcContent (styledContentHidden s q) s.quoteTemplate
  let t2 := replaceFirstSub pcNote (if q.note ≠ [] then q.note else []) t1
  let t3 := replaceFirstSub pcLocation q.location t2
  replaceFirstSub pcColor (if q.color ≠ [] then q.color else []) t3

/-- The block appended for a not-yet-present quote in template mode
(`updatedFileContent += "\n" + gotTemplate`). -/
def templQuoteBlock (s : Settings) (q : Quote) : Str :=
  '\n' :: renderQuoteTemplate s q

/-- The fixed-layout quote loop: append the block of every quote whose
content is not in the extracted identity list. -/
def appendQuotesFixed (s : Settings) (existing : List Str) (init : Str)
    (qs : List Quote) : Str :=
  qs.foldl
    (fun acc q => if q.content ∈ existing then acc else acc ++ fixedQuoteBlock s q)
    init

/-- The template-mode quote loop. -/
def appendQuotesTempl (s : Settings) (existing : List Str) (init : Str)
    (qs : List Quote) : Str :=
  qs.foldl
    (fun acc q => if q.content ∈ existing then acc else acc ++ templQuoteBlock s q)
    init

/-- The per-type subfolder of a source: `<root>/<Type>s/`. -/
def itemFolderPath (s : Settings) (item : Source) : Str :=
  s.rootFolder ++ str "/" ++ firstLetterUppercase item.type ++ str "s/"

/-- The target path of a source:
`<root>/<Type>s/<toSafeFileName(renderFileName)>.md`. -/
def itemFilePath (s : Settings) (item : Source) : Str :=
  itemFolderPath s item ++ toSafeFileName s (renderFileName s item) ++ str ".md"

/-- The per-source body of `applyData`'s main loop: read the target file if
present, extract the existing quote identities (marker mode iff a quote
template is configured), start from the whole existing text (else from the
rendered header), append the missing quote blocks, and write the result
back (modify if present, create otherwise). -/
def applyItem (s : Settings) (v : Vault) (item : Source) : Vault :=
  let filePath := itemFilePath s item
  let state := match readFile v filePath with
    | some fileData =>
      ((if s.quoteTemplate ≠ [] then extractExistingQuotesUsingTemplate fileData
        else extractExistingQuotes fileData), fileData)
    | none => (([] : List Str), sourceHeader s item)
  let updated :=
    if s.quoteTemplate ≠ [] then appendQuotesTempl s state.1 state.2 item.quotes
    else appendQuotesFixed s state.1 state.2 item.quotes
  vaultWrite v filePath updated

/-- `applyData`: ensure the root folder and one subfolder per normalized
type, then merge every source into its target file. -/
def applyData (s : Settings) (v : Vault) (data : List Source) : Vault :=
  let parentFolderPath := s.rootFolder ++ str "/"
  let v1 := ensureFolder v parentFolderPath
  let types := (data.map fun item => firstLetterUppercase item.type).eraseDups
  let v2 := types.foldl
    (fun vv ty => ensureFolder vv (parentFolderPath ++ ty ++ str "s/")) v1
  data.foldl (fun vv item => applyItem s vv item) v2

/-! ## The tag cross-linker (`applyTags`) -/

/-- Decimal representation of a counter. -/
def natToStr (n : Nat) : Str := (Nat.repr n).data

/-- `listFolders`: the subfolders of the root folder. -/
def listFolders (s : Settings) (v : Vault) : List Str :=
  (listDir v (s.rootFolder ++ str "/")).folders

/-- The `while` loop of `fileExists`: starting from the current counter,
bump it until `<folder>/<fileName>-<counter>.md` is not in this folder's
file list; returns the chosen name and the counter it left behind.  The
fuel exceeds the file-list length, which bounds the number of hits. -/
def bumpNameF (files : List Str) (folder fileName : Str) :
    Nat → Nat → Str × Nat
  | 0, counter => (fileName ++ str "-" ++ natToStr counter, counter)
  | f + 1, counter =>
    let newName := fileName ++ str "-" ++ natToStr counter
    if (folder ++ str "/" ++ newName ++ str ".md") ∈ files then
      bumpNameF files folder fileName f (counter + 1)
    else (newName, counter)

/-- The folder loop of `fileExists`.  The counter persists across folders;
a suffixed name is returned only when the colliding folder compares equal
to the last filtered folder (`folder === filteredFolders[length - 1]`),
otherwise the loop continues and may fall through to the original name. -/
def fileExistsGo (v : Vault) (fileName : Str) (lastVal : Option Str) :
    List Str → Nat → Option Str
  | [], _ => none
  | folder :: rest, counter =>
    let files := (listDir v folder).files
    if (folder ++ str "/" ++ fileName ++ str ".md") ∈ files then
      let bumped := bumpNameF files folder fileName (files.length + 1) counter
      if some folder = lastVal then some bumped.1
      else fileExistsGo v fileName lastVal rest bumped.2
    else fileExistsGo v fileName lastVal rest counter

/-- `fileExists` from the source: scan every root subfolder except
`<root>/Tags` for a collision with `<fileName>.md` and resolve it by
numeric suffixing, subject to the last-folder return condition. -/
def fileExists (s : Settings) (v : Vault) (fileName : Str) : Str :=
  let filteredFolders :=
    (listFolders s v).filter fun f => f ≠ s.rootFolder ++ str "/Tags"
  match fileExistsGo v fileName filteredFolders.getLast? filteredFolders 1 with
  | some n => n
  | none => fileName

/-- One folder of the tag source scan: for each `.md` file in the folder,
if its text contains any of the tag's source ids (first match wins via the
`break`), record a link line for the file's stem, unless the folder path
contains `Tags`. -/
def scanOneFolder (v : Vault) (folder : Str) (sourceIds : List Str) :
    List Str :=
  (listDir v folder).files.foldl
    (fun acc file =>
      if strEndsWith file (str ".md") then
        let fileContent := (readFile v file).getD []
        match sourceIds.find? (fun sid => subStr sid fileContent) with
        | some _ =>
          let stem := replaceFirstSub (str ".md") []
            ((file.reverse.takeWhile fun c => c ≠ '/').reverse)
          let name := if stem = [] then str "Unknown" else stem
          if ¬ subStr (str "Tags") folder then
            acc ++ [str "- [[" ++ name ++ str "]]\n"]
          else acc
        | none => acc
      else acc)
    []

/-- The folder scan of `applyTags`.  The guard compares each listed folder
against `parentFolderPath` (which carries a trailing slash, while listings
do not), exactly as in the source. -/
def scanFoldersForSources (v : Vault) (parentFolderPath : Str)
    (sourceIds : List Str) (folders : List Str) : List Str :=
  folders.foldl
    (fun acc folder =>
      if folder = parentFolderPath then acc
      else acc ++ scanOneFolder v folder sourceIds)
    []

/-- The rendered content of a tag file: title heading, optional
description, and a Sources section resolved by (a) the id-in-file-text
scan, (b) the cycle's id-to-filename map, (c) the raw ids. -/
def tagFileContent (s : Settings) (m : List (Str × Str)) (v : Vault)
    (parentFolderPath : Str) (tag : Tag) : Str :=
  let base := str "# " ++ tag.title ++ str "\n\n"
  let base := if tag.description ≠ [] then base ++ tag.description ++ str "\n\n"
    else base
  if tag.sourceIds ≠ [] then
    let base := base ++ str "## Sources\n\n"
    let sourceFolders := (listDir v (s.rootFolder ++ str "/")).folders
    let foundSources :=
      scanFoldersForSources v parentFolderPath tag.sourceIds sourceFolders
    if foundSources ≠ [] then base ++ foundSources.eraseDups.flatten
    else
      let mapped := tag.sourceIds.filterMap fun sid =>
        match lookupFile m sid with
        | some f => if f ≠ [] then some (str "- [[" ++ f ++ str "]]\n") else none
        | none => none
      if mapped ≠ [] then base ++ mapped.flatten
      else base ++ (tag.sourceIds.map fun sid =>
        str "- [[" ++ toSafeFileName s sid ++ str "]]\n").flatten
  else base

/-- The per-tag body of `applyTags`: resolve the filename through
`fileExists`; skip the tag entirely when a file already occupies the
resolved Tags path; otherwise render and write the tag file. -/
def applyTagItem (s : Settings) (m : List (Str × Str))
    (parentFolderPath : Str) (v : Vault) (tag : Tag) : Vault :=
  let fileName := fileExists s v (toSafeFileName s tag.title)
  let filePath := parentFolderPath ++ fileName ++ str ".md"
  if (readFile v filePath).isSome then v
  else vaultWrite v filePath (tagFileContent s m v parentFolderPath tag)

/-- `applyTags`: ensure the Tags folder, then process every tag. -/
def applyTags (s : Settings) (m : List (Str × Str)) (v : Vault)
    (data : List Tag) : Vault :=
  let parentFolderPath := s.rootFolder ++ str "/Tags/"
  let v1 := ensureFolder v parentFolderPath
  data.foldl (fun vv tag => applyTagItem s m parentFolderPath vv tag) v1

/-! ## The daily reflection injector -/

/-- The color-styled reflection quote. -/
def styledReflectionQuote (s : Settings) (r : DailyReflection) : Str :=
  if s.quoteColorMode ≠ QuoteColorMode.cmNone ∧ r.color ≠ [] then
    let hex := colorHexFor s r.color
    if hex ≠ [] then
      match s.quoteColorMode with
      | QuoteColorMode.cmBackground =>
        str "<div style=\"background-color: " ++ hex ++
          str "; padding: 12px;\">" ++ r.quote ++ str "</div>"
      | QuoteColorMode.cmText =>
        str "<span style=\"color: " ++ hex ++ str ";\">" ++ r.quote ++
          str "</span>"
      | QuoteColorMode.cmNone => r.quote
    else r.quote
  else r.quote

/-- The `sourceFile` link target: the cycle map entry for the reflection's
source id when truthy, else the reflection's own source title. -/
def reflectionSourceFile (m : List (Str × Str)) (r : DailyReflection) : Str :=
  match lookupFile m r.sourceId with
  | some f => if f ≠ [] then f else r.source
  | none => r.source

/-- The fixed fallback daily-reflection layout. -/
def dailyReflectionFixed (s : Settings) (m : List (Str × Str))
    (r : DailyReflection) : Str :=
  str "\n---\n" ++ str "## Daily Reflection" ++ str "\n\n> \"" ++
  styledReflectionQuote s r ++ str "\"\n\n**" ++
  firstLetterUppercase r.type ++ str ":** [[" ++ reflectionSourceFile m r ++
  str "]]\n**Author:** [[" ++ r.author ++ str "]]\n**Location:** " ++
  r.location ++ str "\n\n**Note:** " ++ r.note ++ str "\n\n---\n"

/-- The value substituted for `{{dailyReflectionContent}}`. -/
def dailyReflectionInline (s : Settings) (m : List (Str × Str))
    (r : DailyReflection) : Str :=
  str "> \"" ++ styledReflectionQuote s r ++ str "\"\n\n**" ++
  firstLetterUppercase r.type ++ str ":** [[" ++ reflectionSourceFile m r ++
  str "]]\n**Author:** [[" ++ r.author ++ str "]]\n**Location:** " ++
  r.location ++ str "\n\n**Note:** " ++ r.note

/-- The rendered reflection block: the fixed layout, overridden by the
configured daily-reflection template with its placeholders substituted by
first-occurrence replacements. -/
def renderedReflection (s : Settings) (m : List (Str × Str))
    (r : DailyReflection) : Str :=
  if s.dailyReflectionTemplate ≠ [] then
    let t1 := replaceFirstSub (str "\x7b\x7bquote\x7d\x7d")
      (styledReflectionQuote s r) s.dailyReflectionTemplate
    let t2 := replaceFirstSub (str "\x7b\x7btype\x7d\x7d")
      (firstLetterUppercase r.type) t1
    let t3 := replaceFirstSub (str "\x7b\x7bsource\x7d\x7d")
      (reflectionSourceFile m r) t2
    let t4 := replaceFirstSub (str "\x7b\x7bauthor\x7d\x7d") r.author t3
    let t5 := replaceFirstSub (str "\x7b\x7blocation\x7d\x7d") r.location t4
    let t6 := replaceFirstSub (str "\x7b\x7bnote\x7d\x7d")
      (if r.note ≠ [] then r.note else []) t5
    replaceFirstSub (str "\x7b\x7bdailyReflectionContent\x7d\x7d")
      (dailyReflectionInline s m r) t6
  else dailyReflectionFixed s m r

/-- The presence check of `appendToDailyNote`: the marker scan when a
daily-reflection template is configured, else the literal
`"## Daily Reflection"` substring check. -/
def detectReflection (s : Settings) (content : Str) : Bool :=
  if s.dailyReflectionTemplate ≠ [] then
    extractExistingDailyReflectionUsingTemplate content
      s.dailyReflectionTemplate
  else subStr (str "## Daily Reflection") content

/-- `appendToDailyNote`: no-op when the daily note does not exist; no-op
when the presence check fires; otherwise append the marker-wrapped rendered
block and write the note back. -/
def appendToDailyNote (s : Settings) (m : List (Str × Str)) (filePath : Str)
    (r : DailyReflection) (v : Vault) : Vault :=
  match readFile v filePath with
  | none => v
  | some content =>
    let hiddenReflectionContent :=
      hiddenChar :: (renderedReflection s m r ++ [hiddenChar])
    if detectReflection s content then v
    else vaultWrite v filePath (content ++ hiddenReflectionContent)

/-! ## The sync cycle (`syncData`)

The network transport is an external collaborator; a sync cycle's fetch
outcomes are passed in explicitly.  `none` models a thrown request error
(network failure or timeout of `requestWithTimeout`); for the connect
handshake, `some (status, secret)` models a completed request. -/

structure FetchOutcomes where
  connect : Option (Nat × Str)
  sources : Option (List Source)
  tags : Option (Bool × List Tag)

/-- `checkConnection`: nothing to do when a secret is cached; otherwise the
connect endpoint must complete with status 200, storing the secret, and any
other outcome rethrows (`none`). -/
def checkConnection (s : Settings) (conn : Option (Nat × Str)) :
    Option Settings :=
  if s.secret ≠ [] then some s
  else match conn with
    | some (status, sec) =>
      if status = 200 then some { s with secret := sec } else none
    | none => none

/-- `fetchTags`: a thrown request error or a response whose `success` flag
is false yields the empty list; errors never propagate. -/
def fetchTags (tagsOutcome : Option (Bool × List Tag)) : List Tag :=
  match tagsOutcome with
  | none => []
  | some (success, d) => if success then d else []

/-- The cycle-scoped `sourceIdToFileName` map (`Map.set` updates an
existing key in place, otherwise appends). -/
def mapSet (m : List (Str × Str)) (k val : Str) : List (Str × Str) :=
  if (lookupFile m k).isSome then
    m.map fun e => if e.1 = k then (k, val) else e
  else m ++ [(k, val)]

/-- The map-building loop of `syncData`. -/
def buildFileNameMap (s : Settings) (data : List Source) : List (Str × Str) :=
  data.foldl
    (fun m item =>
      mapSet m item.id (toSafeFileName s (renderFileName s item)))
    []

/-- The observable outcome of one `syncData` call: whether it completed,
the settings (the connect step may store a secret), the vault, and the
cycle map. -/
structure SyncResult where
  ok : Bool
  settings : Settings
  vault : Vault
  fileNameMap : List (Str × Str)

/-- `syncData`: connect check, sources fetch, tags fetch, map build, then
`applyData` and `applyTags` (each only when its data is nonempty and
`applyTheData` is set).  A connect or sources failure aborts before any
vault operation; a tags failure was already swallowed by `fetchTags`. -/
def syncData (s : Settings) (o : FetchOutcomes) (applyTheData : Bool)
    (v : Vault) : SyncResult :=
  match checkConnection s o.connect with
  | none => ⟨false, s, v, []⟩
  | some s1 =>
    match o.sources with
    | none => ⟨false, s1, v, []⟩
    | some data =>
      let tagsData := fetchTags o.tags
      let m := if 0 < data.length then buildFileNameMap s1 data else []
      let v1 := if 0 < data.length ∧ applyTheData then applyData s1 v data
        else v
      let v2 := if 0 < tagsData.length ∧ applyTheData then
          applyTags s1 m v1 tagsData
        else v1
      ⟨true, s1, v2, m⟩

/-- `DEFAULT_SETTINGS` from the source.  The `momentFormat` collaborator is
instantiated with a function that returns the raw value (any function can
be substituted; no claim below depends on this choice). -/
def DEFAULT_SETTINGS : Settings where
  unearthedApiKey := []
  secret := []
  dailyReflectionDateFormat := str "YYYY-MM-DD"
  dailyReflectionLocation := str "Daily Notes"
  quoteTemplate := []
  sourceTemplate := []
  sourceFilenameTemplate := str "\x7b\x7btitle\x7d\x7d"
  sourceFilenameLowercase := true
  sourceFilenameReplaceSpaces := str "-"
  dailyReflectionTemplate := []
  rootFolder := str "Unearthed"
  quoteColorMode := QuoteColorMode.cmBackground
  customColors :=
    ⟨str "#ffd700", str "#4682b4", str "#ff69b4", str "#ffa500"⟩
  momentFormat := fun d _ => d

/-! ## Concrete example data used by the claim theorems -/

/-- The empty vault. -/
def exVault0 : Vault := ⟨[], []⟩

/-- Default settings with color styling off. -/
def exSettingsNone : Settings :=
  { DEFAULT_SETTINGS with quoteColorMode := QuoteColorMode.cmNone }

/-- A quote whose highlighted content is the empty string. -/
def exQuoteEmpty : Quote :=
  ⟨str "q1", [], [], [], str "l", str "s1", [], []⟩

/-- A source carrying the empty-content quote. -/
def exSourceEmptyQuote : Source :=
  ⟨str "s1", str "t", [], str "a", [], str "book", str "o", [], false, [],
   [], [exQuoteEmpty]⟩

/-- A quote with ordinary content. -/
def exQuoteHello : Quote :=
  ⟨str "q2", str "hello", str "n", [], str "7", str "s1", [], []⟩

/-- A source carrying the ordinary quote. -/
def exSourceHello : Source :=
  ⟨str "s1", str "t", [], str "a", [], str "book", str "o", [], false, [],
   [], [exQuoteHello]⟩

/-- A vault already holding text at the example source's target path. -/
def exVaultOld : Vault :=
  ⟨[(str "Unearthed/Books/t.md", str "OLD TEXT\n")], [str "Unearthed"]⟩

/-- A tag titled Growth. -/
def exTagGrowth1 : Tag := ⟨str "t1", [], str "Growth", [], [], []⟩

/-- A second tag also titled Growth, with a different description. -/
def exTagGrowth2 : Tag := ⟨str "t2", [], str "Growth", str "second", [], []⟩

/-- A vault with just the root folder. -/
def exVaultRoot : Vault := ⟨[], [str "Unearthed"]⟩

/-- A vault already holding a tag file. -/
def exVaultTagExisting : Vault :=
  ⟨[(str "Unearthed/Tags/growth.md", str "# Growth\n\n")],
   [str "Unearthed", str "Unearthed/Tags"]⟩

/-- A vault with a source file named growth.md outside the Tags folder. -/
def exVaultBooks : Vault :=
  ⟨[(str "Unearthed/Books/growth.md", str "x")],
   [str "Unearthed", str "Unearthed/Books", str "Unearthed/Tags"]⟩

/-- Settings with a quote template that repeats the note placeholder. -/
def exSettingsDupNote : Settings :=
  { DEFAULT_SETTINGS with
    quoteTemplate := str "\x7b\x7bnote\x7d\x7d \x7b\x7bnote\x7d\x7d" }

/-- A quote with note `x`. -/
def exQuoteNoteX : Quote :=
  ⟨str "q3", str "c", str "x", [], [], str "s1", [], []⟩

/-- Settings whose filename template repeats the title placeholder. -/
def exSettingsTitleTwice : Settings :=
  { DEFAULT_SETTINGS with
    sourceFilenameTemplate :=
      str "\x7b\x7btitle\x7d\x7d-\x7b\x7btitle\x7d\x7d" }

/-- Settings with a daily-reflection template repeating the note
placeholder. -/
def exSettingsReflDup : Settings :=
  { DEFAULT_SETTINGS with
    dailyReflectionTemplate :=
      str "\x7b\x7bnote\x7d\x7d \x7b\x7bnote\x7d\x7d" }

/-- A daily reflection record. -/
def exRefl : DailyReflection :=
  ⟨str "book", str "B", str "s1", str "A", str "Q", str "n", str "L", []⟩

/-- A vault holding a daily note without a reflection block. -/
def exVaultDaily : Vault :=
  ⟨[(str "Daily Notes/2024-01-01.md", str "hello")], [str "Daily Notes"]⟩

/-- Fetch outcomes of a cycle whose sources request failed. -/
def exOutcomesNoSources : FetchOutcomes := ⟨some (200, str "k"), none, none⟩

/-- Settings configuring a source template with no createdAt placeholder. -/
def exSettingsTemplNoDate : Settings :=
  { DEFAULT_SETTINGS with sourceTemplate := str "# \x7b\x7btitle\x7d\x7d" }

/-- A source with no quotes. -/
def exSourceNoQuotes : Source :=
  ⟨str "s1", str "t", [], str "a", [], str "book", str "o", [], false, [],
   [], []⟩

/-- Default settings with a cached secret. -/
def exSettingsSecret : Settings := { DEFAULT_SETTINGS with secret := str "k" }

/-- Fetch outcomes of a cycle whose tags request reported failure. -/
def exOutcomesTagsFail : FetchOutcomes :=
  ⟨none, some [exSourceHello], some (false, [exTagGrowth1])⟩

/-- A source with a createdAt value and no quotes. -/
def exSourceCreated : Source :=
  ⟨str "s1", str "t", [], str "a", [], str "book", str "o", [], false,
   str "d", [], []⟩

/-- Settings whose source template repeats the createdAt placeholder. -/
def exSettingsCreatedTwice : Settings :=
  { DEFAULT_SETTINGS with
    sourceTemplate :=
      str "\x7b\x7bcreatedAt\x7d\x7d \x7b\x7bcreatedAt\x7d\x7d" }

/-! ## Basic lemmas about the string primitives -/

theorem hasPre_self_append (pat r : Str) : hasPre pat (pat ++ r) = true := by
  induction pat with
  | nil => rfl
  | cons p ps ih => simp [hasPre, ih]

theorem subStr_append_right (pat t : Str) (h : subStr pat t = true)
    (l : Str) : subStr pat (l ++ t) = true := by
  induction l with
  | nil => simpa using h
  | cons c cs ih => simp [subStr, ih]

theorem subStr_self_mid (pat l r : Str) :
    subStr pat (l ++ (pat ++ r)) = true := by
  induction l with
  | nil =>
    cases pat with
    | nil =>
      cases r with
      | nil => rfl
      | cons c cs => simp [subStr, hasPre]
    | cons p ps =>
      simp only [List.nil_append, List.cons_append, subStr, Bool.or_eq_true]
      exact Or.inl (hasPre_self_append (p :: ps) r)
  | cons c cs ih => simp [subStr, ih]

/-! ## Vault lemmas -/

theorem lookupFile_write_self (l : List (Str × Str)) (p c : Str)
    (h : (lookupFile l p).isSome = true) :
    lookupFile (l.map fun e => if e.1 = p then (p, c) else e) p = some c := by
  induction l with
  | nil => simp [lookupFile] at h
  | cons e rest ih =>
    obtain ⟨a, d⟩ := e
    rw [List.map_cons]
    show lookupFile ((if a = p then (p, c) else (a, d)) ::
      rest.map fun e => if e.1 = p then (p, c) else e) p = some c
    by_cases ha : a = p
    · rw [if_pos ha]
      simp [lookupFile]
    · rw [if_neg ha]
      simp only [lookupFile, ha, if_false] at h ⊢
      exact ih h

theorem lookupFile_write_ne (l : List (Str × Str)) (p c q : Str)
    (hne : q ≠ p) :
    lookupFile (l.map fun e => if e.1 = p then (p, c) else e) q =
      lookupFile l q := by
  induction l with
  | nil => rfl
  | cons e rest ih =>
    obtain ⟨a, d⟩ := e
    rw [List.map_cons]
    show lookupFile ((if a = p then (p, c) else (a, d)) ::
      rest.map fun e => if e.1 = p then (p, c) else e) q =
      lookupFile ((a, d) :: rest) q
    by_cases ha : a = p
    · subst ha
      rw [if_pos rfl]
      have h1 : a ≠ q := fun hh => hne hh.symm
      simp only [lookupFile, h1, if_false]
      exact ih
    · rw [if_neg ha]
      by_cases haq : a = q
      · simp [lookupFile, haq]
      · simp only [lookupFile, haq, if_false]
        exact ih

theorem lookupFile_append_of_none (l r : List (Str × Str)) (p : Str)
    (h : lookupFile l p = none) :
    lookupFile (l ++ r) p = lookupFile r p := by
  induction l with
  | nil => rfl
  | cons e rest ih =>
    obtain ⟨a, d⟩ := e
    by_cases ha : a = p
    · simp [lookupFile, ha] at h
    · rw [List.cons_append]
      simp only [lookupFile, ha, if_false] at h ⊢
      exact ih h

theorem readFile_vaultWrite_self (v : Vault) (p c : Str) :
    readFile (vaultWrite v p c) p = some c := by
  unfold vaultWrite
  by_cases h : (readFile v p).isSome
  · simp only [h, if_true]
    exact lookupFile_write_self v.files p c h
  · simp only [h, if_false]
    show lookupFile (v.files ++ [(p, c)]) p = some c
    have hn : lookupFile v.files p = none := by
      cases hh : lookupFile v.files p with
      | none => rfl
      | some d => rw [show readFile v p = some d from hh] at h; simp at h
    rw [lookupFile_append_of_none _ _ _ hn]
    simp [lookupFile]

theorem lookupFile_append_single_ne (l : List (Str × Str)) (p c q : Str)
    (hne : q ≠ p) : lookupFile (l ++ [(p, c)]) q = lookupFile l q := by
  induction l with
  | nil =>
    simp only [List.nil_append, lookupFile]
    rw [if_neg fun hh : p = q => hne hh.symm]
  | cons e rest ih =>
    obtain ⟨a, d⟩ := e
    rw [List.cons_append]
    by_cases ha : a = q
    · simp [lookupFile, ha]
    · simp only [lookupFile, ha, if_false]
      exact ih

theorem readFile_vaultWrite_ne (v : Vault) (p c q : Str) (hne : q ≠ p) :
    readFile (vaultWrite v p c) q = readFile v q := by
  unfold vaultWrite
  by_cases h : (readFile v p).isSome
  · simp only [h, if_true]
    exact lookupFile_write_ne v.files p c q hne
  · simp only [h, if_false]
    show lookupFile (v.files ++ [(p, c)]) q = readFile v q
    exact lookupFile_append_single_ne v.files p c q hne

theorem readFile_vaultWrite_noop (v : Vault) (p c : Str)
    (h : readFile v p = some c) (q : Str) :
    readFile (vaultWrite v p c) q = readFile v q := by
  by_cases hq : q = p
  · subst hq
    rw [readFile_vaultWrite_self, h]
  · exact readFile_vaultWrite_ne v p c q hq

theorem readFile_ensureFolder (v : Vault) (p q : Str) :
    readFile (ensureFolder v p) q = readFile v q := by
  unfold ensureFolder
  dsimp only
  split <;> rfl

theorem readFile_foldl_ensureFolder (l : List Str) (g : Str → Str) :
    ∀ (v : Vault) (q : Str),
    readFile (l.foldl (fun vv ty => ensureFolder vv (g ty)) v) q =
      readFile v q := by
  induction l with
  | nil => intro v q; rfl
  | cons a rest ih =>
    intro v q
    rw [List.foldl_cons, ih, readFile_ensureFolder]

/-! ## Quote-loop fold lemmas -/

theorem appendQuotesFixed_append (s : Settings) (E : List Str)
    (qs : List Quote) : ∀ a b : Str,
    appendQuotesFixed s E (a ++ b) qs = a ++ appendQuotesFixed s E b qs := by
  induction qs with
  | nil => intro a b; rfl
  | cons q rest ih =>
    intro a b
    unfold appendQuotesFixed at *
    by_cases h : q.content ∈ E
    · simp only [List.foldl_cons, h, if_true]
      exact ih a b
    · simp only [List.foldl_cons, h, if_false, List.append_assoc]
      exact ih a (b ++ fixedQuoteBlock s q)

theorem appendQuotesTempl_append (s : Settings) (E : List Str)
    (qs : List Quote) : ∀ a b : Str,
    appendQuotesTempl s E (a ++ b) qs = a ++ appendQuotesTempl s E b qs := by
  induction qs with
  | nil => intro a b; rfl
  | cons q rest ih =>
    intro a b
    unfold appendQuotesTempl at *
    by_cases h : q.content ∈ E
    · simp only [List.foldl_cons, h, if_true]
      exact ih a b
    · simp only [List.foldl_cons, h, if_false, List.append_assoc]
      exact ih a (b ++ templQuoteBlock s q)

theorem appendQuotesFixed_all_skip (s : Settings) (E : List Str)
    (qs : List Quote) (h : ∀ q ∈ qs, q.content ∈ E) (init : Str) :
    appendQuotesFixed s E init qs = init := by
  induction qs generalizing init with
  | nil => rfl
  | cons q rest ih =>
    unfold appendQuotesFixed at *
    have hq : q.content ∈ E := h q (by simp)
    simp only [List.foldl_cons, hq, if_true]
    exact ih (fun x hx => h x (by simp [hx])) init

theorem appendQuotesTempl_all_skip (s : Settings) (E : List Str)
    (qs : List Quote) (h : ∀ q ∈ qs, q.content ∈ E) (init : Str) :
    appendQuotesTempl s E init qs = init := by
  induction qs generalizing init with
  | nil => rfl
  | cons q rest ih =>
    unfold appendQuotesTempl at *
    have hq : q.content ∈ E := h q (by simp)
    simp only [List.foldl_cons, hq, if_true]
    exact ih (fun x hx => h x (by simp [hx])) init

theorem appendQuotesFixed_no_skip (s : Settings) (qs : List Quote) :
    ∀ init : Str, appendQuotesFixed s [] init qs =
      init ++ (qs.map fun q => fixedQuoteBlock s q).flatten := by
  induction qs with
  | nil => intro init; simp [appendQuotesFixed]
  | cons q rest ih =>
    intro init
    have step : appendQuotesFixed s [] init (q :: rest) =
        appendQuotesFixed s [] (init ++ fixedQuoteBlock s q) rest := by
      unfold appendQuotesFixed
      rw [List.foldl_cons, if_neg (List.not_mem_nil q.content)]
    rw [step, ih (init ++ fixedQuoteBlock s q)]
    simp

theorem appendQuotesTempl_no_skip (s : Settings) (qs : List Quote) :
    ∀ init : Str, appendQuotesTempl s [] init qs =
      init ++ (qs.map fun q => templQuoteBlock s q).flatten := by
  induction qs with
  | nil => intro init; simp [appendQuotesTempl]
  | cons q rest ih =>
    intro init
    have step : appendQuotesTempl s [] init (q :: rest) =
        appendQuotesTempl s [] (init ++ templQuoteBlock s q) rest := by
      unfold appendQuotesTempl
      rw [List.foldl_cons, if_neg (List.not_mem_nil q.content)]
    rw [step, ih (init ++ templQuoteBlock s q)]
    simp

/-! ## Scanner lemmas: fuel irrelevance and step equations -/

theorem lengthTakeWhileLe (p : Char → Bool) (l : Str) :
    (l.takeWhile p).length ≤ l.length := by
  induction l with
  | nil => simp
  | cons a rest ih =>
    cases h : p a with
    | true =>
      simp [List.takeWhile_cons, h]
      omega
    | false =>
      simp [List.takeWhile_cons, h]

theorem takeWhile_all_append (p : Char → Bool) (l r : Str)
    (h : ∀ a ∈ l, p a = true) :
    (l ++ r).takeWhile p = l ++ r.takeWhile p := by
  induction l with
  | nil => rfl
  | cons a rest ih =>
    have ha : p a = true := h a (by simp)
    simp only [List.cons_append, List.takeWhile_cons, ha, if_true]
    rw [ih fun x hx => h x (by simp [hx])]

theorem takeWhile_stop (p : Char → Bool) (l r : Str)
    (h : ∀ a ∈ l, p a = true) (c : Char) (hc : p c = false) :
    (l ++ c :: r).takeWhile p = l := by
  rw [takeWhile_all_append p l (c :: r) h]
  simp [List.takeWhile_cons, hc]

theorem extractQF_irrel : ∀ (f g : Nat) (s : Str), s.length ≤ f →
    s.length ≤ g → extractExistingQuotesF f s = extractExistingQuotesF g s := by
  intro f
  induction f with
  | zero =>
    intro g s hf _
    have : s = [] := List.eq_nil_of_length_eq_zero (Nat.le_zero.mp hf)
    subst this
    cases g <;> rfl
  | succ f ih =>
    intro g s hf hg
    cases s with
    | nil => cases g <;> rfl
    | cons ch rest =>
      obtain ⟨g1, rfl⟩ : ∃ g1, g = g1 + 1 := by
        cases g with
        | zero => simp at hg
        | succ g1 => exact ⟨g1, rfl⟩
      have hrest : rest.length ≤ f := by
        simp only [List.length_cons] at hf
        omega
      have hrest1 : rest.length ≤ g1 := by
        simp only [List.length_cons] at hg
        omega
      simp only [extractExistingQuotesF]
      by_cases hch : ch = '>'
      · rw [if_pos hch, if_pos hch]
        cases rest with
        | nil => rfl
        | cons w rest2 =>
          dsimp only
          by_cases hw : jsWs w = true
          · rw [if_pos hw, if_pos hw]
            by_cases hcond : (rest2.takeWhile fun x => !isLineTerm x) ≠ [] ∧
                (rest2.drop
                  (rest2.takeWhile fun x => !isLineTerm x).length).head?
                  = some '\n'
            · have h1 : ((rest2.drop
                  (rest2.takeWhile fun x => !isLineTerm x).length).drop
                    1).length ≤ f := by
                simp only [List.length_cons] at hrest
                simp only [List.length_drop]
                omega
              have h2 : ((rest2.drop
                  (rest2.takeWhile fun x => !isLineTerm x).length).drop
                    1).length ≤ g1 := by
                simp only [List.length_cons] at hrest1
                simp only [List.length_drop]
                omega
              rw [if_pos hcond, if_pos hcond, ih _ _ h1 h2]
            · rw [if_neg hcond, if_neg hcond, ih _ _ hrest hrest1]
          · rw [if_neg hw, if_neg hw, ih _ _ hrest hrest1]
      · rw [if_neg hch, if_neg hch, ih _ _ hrest hrest1]

theorem extractQF_step_ne (f : Nat) (ch : Char) (rest : Str)
    (h : ch ≠ '>') : extractExistingQuotesF (f + 1) (ch :: rest) =
      extractExistingQuotesF f rest := by
  simp only [extractExistingQuotesF]
  rw [if_neg h]

theorem extractQF_step_gt_nil (f : Nat) :
    extractExistingQuotesF (f + 1) ['>'] = [] := by
  simp only [extractExistingQuotesF]
  rw [if_pos trivial]

theorem extractQF_step_notws (f : Nat) (w : Char) (rest2 : Str)
    (h : jsWs w = false) :
    extractExistingQuotesF (f + 1) ('>' :: w :: rest2) =
      extractExistingQuotesF f (w :: rest2) := by
  simp only [extractExistingQuotesF]
  rw [if_pos trivial]
  rw [if_neg (by simp [h])]

theorem extractQF_step_ws_fail (f : Nat) (w : Char) (rest2 : Str)
    (hw : jsWs w = true)
    (hcond : ¬ ((rest2.takeWhile fun x => !isLineTerm x) ≠ [] ∧
      (rest2.drop (rest2.takeWhile fun x => !isLineTerm x).length).head?
        = some '\n')) :
    extractExistingQuotesF (f + 1) ('>' :: w :: rest2) =
      extractExistingQuotesF f (w :: rest2) := by
  simp only [extractExistingQuotesF]
  rw [if_pos trivial]
  rw [if_pos hw, if_neg hcond]

theorem extractQF_step_ws_succ (f : Nat) (w : Char) (rest2 : Str)
    (hw : jsWs w = true)
    (hcond : (rest2.takeWhile fun x => !isLineTerm x) ≠ [] ∧
      (rest2.drop (rest2.takeWhile fun x => !isLineTerm x).length).head?
        = some '\n') :
    extractExistingQuotesF (f + 1) ('>' :: w :: rest2) =
      jsTrim (rest2.takeWhile fun x => !isLineTerm x) ::
        extractExistingQuotesF f
          ((rest2.drop (rest2.takeWhile fun x => !isLineTerm x).length).drop
            1) := by
  simp only [extractExistingQuotesF]
  rw [if_pos trivial]
  rw [if_pos hw, if_pos hcond]

theorem extractQ_cons_ne (ch : Char) (rest : Str) (h : ch ≠ '>') :
    extractExistingQuotes (ch :: rest) = extractExistingQuotes rest :=
  extractQF_step_ne rest.length ch rest h

theorem extractQ_gt_notws (w : Char) (rest2 : Str) (h : jsWs w = false) :
    extractExistingQuotes ('>' :: w :: rest2) =
      extractExistingQuotes (w :: rest2) :=
  extractQF_step_notws (rest2.length + 1) w rest2 h

theorem extractQ_gt_ws_fail (w : Char) (rest2 : Str) (hw : jsWs w = true)
    (hcond : ¬ ((rest2.takeWhile fun x => !isLineTerm x) ≠ [] ∧
      (rest2.drop (rest2.takeWhile fun x => !isLineTerm x).length).head?
        = some '\n')) :
    extractExistingQuotes ('>' :: w :: rest2) =
      extractExistingQuotes (w :: rest2) :=
  extractQF_step_ws_fail (rest2.length + 1) w rest2 hw hcond

theorem extractQ_gt_ws_succ (w : Char) (rest2 : Str) (hw : jsWs w = true)
    (hrun : (rest2.takeWhile fun x => !isLineTerm x) ≠ [])
    (hnl : (rest2.drop (rest2.takeWhile fun x => !isLineTerm x).length).head?
      = some '\n') :
    extractExistingQuotes ('>' :: w :: rest2) =
      jsTrim (rest2.takeWhile fun x => !isLineTerm x) ::
        extractExistingQuotes
          ((rest2.drop (rest2.takeWhile fun x => !isLineTerm x).length).drop
            1) := by
  show extractExistingQuotesF (rest2.length + 1 + 1) ('>' :: w :: rest2) = _
  rw [extractQF_step_ws_succ (rest2.length + 1) w rest2 hw ⟨hrun, hnl⟩]
  refine congrArg _ ?_
  apply extractQF_irrel
  · simp only [List.length_drop]
    omega
  · exact le_refl _

/-! ## The scanner finds every appended fixed-layout block -/

theorem dropWhile_head_false (p : Char → Bool) (l : Str) (b : Char) (r : Str)
    (h : l.dropWhile p = b :: r) : p b = false := by
  induction l with
  | nil => simp [List.dropWhile] at h
  | cons a t ih =>
    by_cases hp : p a = true
    · rw [List.dropWhile_cons, if_pos hp] at h
      exact ih h
    · rw [List.dropWhile_cons, if_neg hp] at h
      cases h
      simpa using hp

theorem mem_extractQ_start (c : Str) (hc1 : c ≠ [])
    (hc2 : ∀ ch ∈ c, isLineTerm ch = false) (hc3 : jsTrim c = c) (Y : Str) :
    c ∈ extractExistingQuotes ('>' :: ' ' :: (c ++ '\n' :: Y)) := by
  have hrun : ((c ++ '\n' :: Y).takeWhile fun x => !isLineTerm x) = c := by
    apply takeWhile_stop
    · intro a ha
      simp [hc2 a ha]
    · decide
  have hrun1 : ((c ++ '\n' :: Y).takeWhile fun x => !isLineTerm x) ≠ [] := by
    rw [hrun]; exact hc1
  have hnl : ((c ++ '\n' :: Y).drop
      ((c ++ '\n' :: Y).takeWhile fun x => !isLineTerm x).length).head?
      = some '\n' := by
    rw [hrun, List.drop_left]
    rfl
  rw [extractQ_gt_ws_succ ' ' (c ++ '\n' :: Y) (by decide) hrun1 hnl, hrun,
    hc3]
  exact List.mem_cons_self c _

theorem mem_extractQ_nl (c : Str) (hc1 : c ≠ [])
    (hc2 : ∀ ch ∈ c, isLineTerm ch = false) (hc3 : jsTrim c = c) (Y : Str) :
    c ∈ extractExistingQuotes ('\n' :: '>' :: ' ' :: (c ++ '\n' :: Y)) := by
  rw [extractQ_cons_ne '\n' _ (by decide)]
  exact mem_extractQ_start c hc1 hc2 hc3 Y

theorem mem_extractQ_nlnl (c : Str) (hc1 : c ≠ [])
    (hc2 : ∀ ch ∈ c, isLineTerm ch = false) (hc3 : jsTrim c = c) (Y : Str) :
    c ∈ extractExistingQuotes
      ('\n' :: '\n' :: '>' :: ' ' :: (c ++ '\n' :: Y)) := by
  rw [extractQ_cons_ne '\n' _ (by decide)]
  exact mem_extractQ_nl c hc1 hc2 hc3 Y

theorem mem_extractQ_block (c : Str) (hc1 : c ≠ [])
    (hc2 : ∀ ch ∈ c, isLineTerm ch = false) (hc3 : jsTrim c = c) :
    ∀ (n : Nat) (X Y : Str), X.length ≤ n →
      c ∈ extractExistingQuotes
        (X ++ '\n' :: '\n' :: '>' :: ' ' :: (c ++ '\n' :: Y)) := by
  intro n
  induction n with
  | zero =>
    intro X Y hX
    have hXnil : X = [] := List.eq_nil_of_length_eq_zero (Nat.le_zero.mp hX)
    subst hXnil
    exact mem_extractQ_nlnl c hc1 hc2 hc3 Y
  | succ n ih =>
    intro X Y hX
    cases X with
    | nil => exact mem_extractQ_nlnl c hc1 hc2 hc3 Y
    | cons a X1 =>
      rw [List.cons_append]
      by_cases ha : a = '>'
      · subst ha
        cases X1 with
        | nil =>
          rw [List.nil_append]
          rw [extractQ_gt_ws_fail '\n'
            ('\n' :: '>' :: ' ' :: (c ++ '\n' :: Y)) (by decide)
            (by simp [List.takeWhile_cons, isLineTerm])]
          exact mem_extractQ_nl c hc1 hc2 hc3 Y
        | cons b X2 =>
          rw [List.cons_append]
          by_cases hb : jsWs b = true
          · rcases hsplit : X2.dropWhile fun x => !isLineTerm x with _ | ⟨b2, B2⟩
            · -- no line terminator inside X2
              have hall : ∀ x ∈ X2, isLineTerm x = false := by
                intro x hx
                have hX2eq : X2 = X2.takeWhile fun x => !isLineTerm x := by
                  conv_lhs => rw [← List.takeWhile_append_dropWhile
                    (p := fun x => !isLineTerm x) (l := X2)]
                  rw [hsplit, List.append_nil]
                rw [hX2eq] at hx
                simpa using List.mem_takeWhile_imp hx
              have hrun : ((X2 ++ '\n' :: '\n' :: '>' :: ' ' ::
                  (c ++ '\n' :: Y)).takeWhile fun x => !isLineTerm x) = X2 :=
                takeWhile_stop _ _ _ (fun a haa => by simp [hall a haa]) '\n'
                  (by decide)
              cases X2 with
              | nil =>
                rw [List.nil_append]
                rw [extractQ_gt_ws_fail b _ hb
                  (by simp [List.takeWhile_cons, isLineTerm])]
                rw [show (b :: '\n' :: '\n' :: '>' :: ' ' :: (c ++ '\n' :: Y))
                    = [b] ++ '\n' :: '\n' :: '>' :: ' ' :: (c ++ '\n' :: Y)
                  from rfl]
                apply ih [b] Y
                simp only [List.length_cons, List.length_nil] at hX ⊢
                omega
              | cons x2 X3 =>
                have hrun1 : (((x2 :: X3) ++ '\n' :: '\n' :: '>' :: ' ' ::
                    (c ++ '\n' :: Y)).takeWhile fun x => !isLineTerm x)
                    ≠ [] := by
                  rw [hrun]
                  exact List.cons_ne_nil x2 X3
                have hnl : (((x2 :: X3) ++ '\n' :: '\n' :: '>' :: ' ' ::
                    (c ++ '\n' :: Y)).drop
                    (((x2 :: X3) ++ '\n' :: '\n' :: '>' :: ' ' ::
                      (c ++ '\n' :: Y)).takeWhile
                        fun x => !isLineTerm x).length).head?
                    = some '\n' := by
                  rw [hrun, List.drop_left]
                  rfl
                rw [extractQ_gt_ws_succ b _ hb hrun1 hnl]
                apply List.mem_cons_of_mem
                rw [hrun, List.drop_left]
                rw [show (('\n' :: '\n' :: '>' :: ' ' ::
                    (c ++ '\n' :: Y)).drop 1)
                    = '\n' :: '>' :: ' ' :: (c ++ '\n' :: Y) from rfl]
                exact mem_extractQ_nl c hc1 hc2 hc3 Y
            · -- X2 splits at its first line terminator b2
              have hlenX2 : B2.length + 1 ≤ X2.length := by
                have h1 := congrArg List.length (List.takeWhile_append_dropWhile
                  (p := fun x => !isLineTerm x) (l := X2))
                rw [hsplit] at h1
                simp only [List.length_append, List.length_cons] at h1
                omega
              have hb2 : isLineTerm b2 = true := by
                have := dropWhile_head_false _ _ _ _ hsplit
                simpa using this
              obtain ⟨A, hallA, hX2⟩ : ∃ A : Str,
                  (∀ x ∈ A, isLineTerm x = false) ∧ X2 = A ++ b2 :: B2 := by
                refine ⟨X2.takeWhile fun x => !isLineTerm x, ?_, ?_⟩
                · intro x hx
                  simpa using List.mem_takeWhile_imp hx
                · conv_lhs => rw [← List.takeWhile_append_dropWhile
                    (p := fun x => !isLineTerm x) (l := X2)]
                  rw [hsplit]
              subst hX2
              rw [List.append_assoc, List.cons_append]
              have hrun : ((A ++ b2 :: (B2 ++ '\n' :: '\n' :: '>' :: ' ' ::
                  (c ++ '\n' :: Y))).takeWhile fun x => !isLineTerm x) = A :=
                takeWhile_stop _ _ _ (fun a haa => by simp [hallA a haa]) b2
                  (by simp [hb2])
              have hafter : ((A ++ b2 :: (B2 ++ '\n' :: '\n' :: '>' :: ' ' ::
                  (c ++ '\n' :: Y))).drop
                  ((A ++ b2 :: (B2 ++ '\n' :: '\n' :: '>' :: ' ' ::
                    (c ++ '\n' :: Y))).takeWhile
                      fun x => !isLineTerm x).length)
                  = b2 :: (B2 ++ '\n' :: '\n' :: '>' :: ' ' ::
                    (c ++ '\n' :: Y)) := by
                rw [hrun, List.drop_left]
              by_cases hcond : ((A ++ b2 :: (B2 ++ '\n' :: '\n' :: '>' ::
                  ' ' :: (c ++ '\n' :: Y))).takeWhile
                    fun x => !isLineTerm x) ≠ [] ∧
                  ((A ++ b2 :: (B2 ++ '\n' :: '\n' :: '>' :: ' ' ::
                    (c ++ '\n' :: Y))).drop
                    ((A ++ b2 :: (B2 ++ '\n' :: '\n' :: '>' :: ' ' ::
                      (c ++ '\n' :: Y))).takeWhile
                        fun x => !isLineTerm x).length).head? = some '\n'
              · rw [extractQ_gt_ws_succ b _ hb hcond.1 hcond.2]
                apply List.mem_cons_of_mem
                rw [hafter]
                rw [show ((b2 :: (B2 ++ '\n' :: '\n' :: '>' :: ' ' ::
                    (c ++ '\n' :: Y))).drop 1)
                    = B2 ++ '\n' :: '\n' :: '>' :: ' ' :: (c ++ '\n' :: Y)
                  from rfl]
                apply ih B2 Y
                simp only [List.length_cons, List.length_append] at hX
                omega
              · rw [extractQ_gt_ws_fail b _ hb hcond]
                rw [show (b :: (A ++ b2 :: (B2 ++ '\n' :: '\n' :: '>' ::
                    ' ' :: (c ++ '\n' :: Y))))
                    = (b :: (A ++ b2 :: B2)) ++ '\n' :: '\n' :: '>' :: ' ' ::
                      (c ++ '\n' :: Y) from by simp]
                apply ih (b :: (A ++ b2 :: B2)) Y
                simp only [List.length_cons, List.length_append] at hX ⊢
                omega
          · have hb2 : jsWs b = false := by
              cases hh : jsWs b
              · rfl
              · exact absurd hh hb
            rw [extractQ_gt_notws b _ hb2]
            rw [show (b :: (X2 ++ '\n' :: '\n' :: '>' :: ' ' ::
                (c ++ '\n' :: Y)))
                = (b :: X2) ++ '\n' :: '\n' :: '>' :: ' ' :: (c ++ '\n' :: Y)
              from rfl]
            apply ih (b :: X2) Y
            simp only [List.length_cons] at hX ⊢
            omega
      · rw [extractQ_cons_ne a _ ha]
        apply ih X1 Y
        simp only [List.length_cons] at hX
        omega

/-! ## `applyData` in fixed-layout mode: run structure -/

theorem fixedQuoteBlock_shape (s : Settings) (q : Quote)
    (hmode : s.quoteColorMode = QuoteColorMode.cmNone) :
    ∃ tail : Str, fixedQuoteBlock s q =
      ['-', '-', '-'] ++ '\n' :: '\n' :: '>' :: ' ' ::
        (q.content ++ '\n' :: tail) := by
  refine ⟨'\n' :: ((if q.note ≠ [] then str "**Note:** " ++ q.note ++
    str "\n\n" else []) ++ (str "**Location:** " ++ q.location ++
    str "\n\n") ++ (if q.color ≠ [] then str "**Color:** " ++ q.color ++
    str "\n\n" else [])), ?_⟩
  unfold fixedQuoteBlock styledContentFixed
  rw [hmode]
  simp [str, List.append_assoc]

theorem content_mem_extract_full (s : Settings)
    (hmode : s.quoteColorMode = QuoteColorMode.cmNone) (header : Str)
    (qs : List Quote) (q : Quote) (hq : q ∈ qs) (hc1 : q.content ≠ [])
    (hc2 : ∀ ch ∈ q.content, isLineTerm ch = false)
    (hc3 : jsTrim q.content = q.content) :
    q.content ∈ extractExistingQuotes
      (header ++ (qs.map fun x => fixedQuoteBlock s x).flatten) := by
  obtain ⟨l1, l2, rfl⟩ := List.append_of_mem hq
  obtain ⟨tail, htail⟩ := fixedQuoteBlock_shape s q hmode
  have hflat : ((l1 ++ q :: l2).map fun x => fixedQuoteBlock s x).flatten =
      (l1.map fun x => fixedQuoteBlock s x).flatten ++ fixedQuoteBlock s q ++
        (l2.map fun x => fixedQuoteBlock s x).flatten := by
    simp
  rw [hflat, htail]
  have hassemble : header ++
      ((l1.map fun x => fixedQuoteBlock s x).flatten ++
        (['-', '-', '-'] ++ '\n' :: '\n' :: '>' :: ' ' ::
          (q.content ++ '\n' :: tail)) ++
        (l2.map fun x => fixedQuoteBlock s x).flatten) =
      (header ++ (l1.map fun x => fixedQuoteBlock s x).flatten ++
        ['-', '-', '-']) ++ '\n' :: '\n' :: '>' :: ' ' ::
          (q.content ++ '\n' ::
            (tail ++ (l2.map fun x => fixedQuoteBlock s x).flatten)) := by
    simp [List.append_assoc]
  rw [hassemble]
  exact mem_extractQ_block q.content hc1 hc2 hc3 _ _ _ (le_refl _)

theorem applyItem_absent (s : Settings) (v : Vault) (item : Source)
    (hqt : s.quoteTemplate = [])
    (habs : readFile v (itemFilePath s item) = none) :
    applyItem s v item = vaultWrite v (itemFilePath s item)
      (sourceHeader s item ++
        (item.quotes.map fun q => fixedQuoteBlock s q).flatten) := by
  unfold applyItem
  dsimp only
  rw [habs]
  rw [hqt]
  rw [if_neg (by simp : ¬ ([] : Str) ≠ [])]
  rw [appendQuotesFixed_no_skip]

theorem applyItem_present_skip (s : Settings) (v : Vault) (item : Source)
    (f0 : Str) (hqt : s.quoteTemplate = [])
    (hpres : readFile v (itemFilePath s item) = some f0)
    (hall : ∀ q ∈ item.quotes, q.content ∈ extractExistingQuotes f0) :
    applyItem s v item = vaultWrite v (itemFilePath s item) f0 := by
  unfold applyItem
  dsimp only
  rw [hpres, hqt]
  dsimp only
  rw [if_neg (by simp : ¬ ([] : Str) ≠ [])]
  rw [if_neg (by simp : ¬ ([] : Str) ≠ [])]
  rw [appendQuotesFixed_all_skip s _ _ hall]

theorem foldl_applyItem_run1 (s : Settings) (hqt : s.quoteTemplate = []) :
    ∀ (data : List Source) (v : Vault),
    (data.map fun it => itemFilePath s it).Nodup →
    (∀ item ∈ data, readFile v (itemFilePath s item) = none) →
    ((∀ item ∈ data,
      readFile (data.foldl (fun vv it => applyItem s vv it) v)
        (itemFilePath s item) = some (sourceHeader s item ++
          (item.quotes.map fun q => fixedQuoteBlock s q).flatten)) ∧
     (∀ p : Str, (∀ item ∈ data, p ≠ itemFilePath s item) →
      readFile (data.foldl (fun vv it => applyItem s vv it) v) p =
        readFile v p)) := by
  intro data
  induction data with
  | nil => exact fun v _ _ => ⟨fun item h => absurd h (List.not_mem_nil item),
      fun p _ => rfl⟩
  | cons it rest ih =>
    intro v hnodup habs
    rw [List.map_cons, List.nodup_cons] at hnodup
    have hpath_notin : itemFilePath s it ∉ rest.map fun x => itemFilePath s x :=
      hnodup.1
    have habs_it : readFile v (itemFilePath s it) = none :=
      habs it (by simp)
    have hwrite := applyItem_absent s v it hqt habs_it
    rw [List.foldl_cons]
    have hself : readFile (applyItem s v it) (itemFilePath s it) =
        some (sourceHeader s it ++
          (it.quotes.map fun q => fixedQuoteBlock s q).flatten) := by
      rw [hwrite]
      exact readFile_vaultWrite_self v _ _
    have hother : ∀ p : Str, p ≠ itemFilePath s it →
        readFile (applyItem s v it) p = readFile v p := by
      intro p hp
      rw [hwrite]
      exact readFile_vaultWrite_ne v _ _ p hp
    have habs_rest : ∀ item ∈ rest,
        readFile (applyItem s v it) (itemFilePath s item) = none := by
      intro item hmem
      have hne : itemFilePath s item ≠ itemFilePath s it := by
        intro heq
        exact hpath_notin (heq ▸ List.mem_map_of_mem _ hmem)
      rw [hother _ hne]
      exact habs item (by simp [hmem])
    obtain ⟨ihA, ihB⟩ := ih (applyItem s v it) hnodup.2 habs_rest
    constructor
    · intro item hmem
      rcases List.mem_cons.mp hmem with heq | hmem2
      · subst heq
        rw [ihB (itemFilePath s item) ?_]
        · exact hself
        · intro it2 hit2 heq2
          exact hpath_notin (heq2 ▸ List.mem_map_of_mem _ hit2)
      · exact ihA item hmem2
    · intro p hp
      rw [ihB p fun item hmem => hp item (by simp [hmem])]
      exact hother p (hp it (by simp))

theorem foldl_applyItem_run2 (s : Settings) (hqt : s.quoteTemplate = []) :
    ∀ (data : List Source) (v : Vault),
    (∀ item ∈ data, ∃ f0 : Str,
      readFile v (itemFilePath s item) = some f0 ∧
      ∀ q ∈ item.quotes, q.content ∈ extractExistingQuotes f0) →
    ∀ p : Str, readFile (data.foldl (fun vv it => applyItem s vv it) v) p =
      readFile v p := by
  intro data
  induction data with
  | nil => exact fun v _ p => rfl
  | cons it rest ih =>
    intro v hinv p
    obtain ⟨f0, hf0, hall⟩ := hinv it (by simp)
    have hwrite := applyItem_present_skip s v it f0 hqt hf0 hall
    rw [List.foldl_cons]
    have hnoop : ∀ q : Str, readFile (applyItem s v it) q = readFile v q := by
      intro q
      rw [hwrite]
      exact readFile_vaultWrite_noop v _ _ hf0 q
    have hinv_rest : ∀ item ∈ rest, ∃ f1 : Str,
        readFile (applyItem s v it) (itemFilePath s item) = some f1 ∧
        ∀ q ∈ item.quotes, q.content ∈ extractExistingQuotes f1 := by
      intro item hmem
      obtain ⟨f1, hf1, hall1⟩ := hinv item (by simp [hmem])
      exact ⟨f1, by rw [hnoop]; exact hf1, hall1⟩
    rw [ih (applyItem s v it) hinv_rest p]
    exact hnoop p

/-! ## Marker-mode scanner lemmas -/

theorem extractTF_irrel : ∀ (f g : Nat) (s : Str), s.length ≤ f →
    s.length ≤ g → extractExistingQuotesUsingTemplateF f s =
      extractExistingQuotesUsingTemplateF g s := by
  intro f
  induction f with
  | zero =>
    intro g s hf _
    have : s = [] := List.eq_nil_of_length_eq_zero (Nat.le_zero.mp hf)
    subst this
    cases g <;> rfl
  | succ f ih =>
    intro g s hf hg
    cases s with
    | nil => cases g <;> rfl
    | cons ch rest =>
      obtain ⟨g1, rfl⟩ : ∃ g1, g = g1 + 1 := by
        cases g with
        | zero => simp at hg
        | succ g1 => exact ⟨g1, rfl⟩
      have hrest : rest.length ≤ f := by
        simp only [List.length_cons] at hf
        omega
      have hrest1 : rest.length ≤ g1 := by
        simp only [List.length_cons] at hg
        omega
      simp only [extractExistingQuotesUsingTemplateF]
      by_cases hch : ch = hiddenChar
      · rw [if_pos hch, if_pos hch]
        cases rest with
        | nil => rfl
        | cons d rest2 =>
          dsimp only
          by_cases hcond : ((d :: rest2.takeWhile fun x => x ≠ hiddenChar).all
                fun x => !isLineTerm x) ∧
              ((d :: rest2).drop
                (d :: rest2.takeWhile fun x => x ≠ hiddenChar).length).head?
                = some hiddenChar
          · have h1 : (((d :: rest2).drop
                (d :: rest2.takeWhile fun x => x ≠ hiddenChar).length).drop
                  1).length ≤ f := by
              simp only [List.length_cons] at hrest
              simp only [List.length_drop, List.length_cons]
              omega
            have h2 : (((d :: rest2).drop
                (d :: rest2.takeWhile fun x => x ≠ hiddenChar).length).drop
                  1).length ≤ g1 := by
              simp only [List.length_cons] at hrest1
              simp only [List.length_drop, List.length_cons]
              omega
            rw [if_pos hcond, if_pos hcond, ih _ _ h1 h2]
          · rw [if_neg hcond, if_neg hcond, ih _ _ hrest hrest1]
      · rw [if_neg hch, if_neg hch, ih _ _ hrest hrest1]

theorem extractTF_step_ne (f : Nat) (ch : Char) (rest : Str)
    (h : ch ≠ hiddenChar) :
    extractExistingQuotesUsingTemplateF (f + 1) (ch :: rest) =
      extractExistingQuotesUsingTemplateF f rest := by
  simp only [extractExistingQuotesUsingTemplateF]
  rw [if_neg h]

theorem extractTF_step_succ (f : Nat) (d : Char) (rest2 : Str)
    (hcond : ((d :: rest2.takeWhile fun x => x ≠ hiddenChar).all
        fun x => !isLineTerm x) ∧
      ((d :: rest2).drop
        (d :: rest2.takeWhile fun x => x ≠ hiddenChar).length).head?
        = some hiddenChar) :
    extractExistingQuotesUsingTemplateF (f + 1) (hiddenChar :: d :: rest2) =
      jsTrim (d :: rest2.takeWhile fun x => x ≠ hiddenChar) ::
        extractExistingQuotesUsingTemplateF f
          (((d :: rest2).drop
            (d :: rest2.takeWhile fun x => x ≠ hiddenChar).length).drop 1) := by
  simp only [extractExistingQuotesUsingTemplateF]
  rw [if_pos trivial]
  rw [if_pos hcond]

theorem extractT_cons_ne (ch : Char) (rest : Str) (h : ch ≠ hiddenChar) :
    extractExistingQuotesUsingTemplate (ch :: rest) =
      extractExistingQuotesUsingTemplate rest :=
  extractTF_step_ne rest.length ch rest h

theorem extractT_skip_plain (P : Str) (hP : hiddenChar ∉ P) (r : Str) :
    extractExistingQuotesUsingTemplate (P ++ r) =
      extractExistingQuotesUsingTemplate r := by
  induction P with
  | nil => rfl
  | cons a P1 ih =>
    rw [List.cons_append, extractT_cons_ne a _ (by
      intro hh
      exact hP (hh ▸ List.mem_cons_self a P1))]
    exact ih fun hm => hP (List.mem_cons_of_mem a hm)

theorem extractT_block (c : Str) (hc1 : c ≠ [])
    (hc2 : ∀ ch ∈ c, isLineTerm ch = false) (hcH : hiddenChar ∉ c)
    (R : Str) :
    extractExistingQuotesUsingTemplate
      (hiddenChar :: (c ++ hiddenChar :: R)) =
      jsTrim c :: extractExistingQuotesUsingTemplate R := by
  obtain ⟨d, c', rfl⟩ : ∃ d c', c = d :: c' := by
    cases c with
    | nil => exact absurd rfl hc1
    | cons d c' => exact ⟨d, c', rfl⟩
  have htw : ((c' ++ hiddenChar :: R).takeWhile fun x => x ≠ hiddenChar)
      = c' := by
    apply takeWhile_stop
    · intro a ha
      simp only [decide_eq_true_eq]
      intro hh
      exact hcH (hh ▸ List.mem_cons_of_mem d ha)
    · simp
  have hseg : (d :: ((c' ++ hiddenChar :: R).takeWhile
      fun x => x ≠ hiddenChar)) = d :: c' := by rw [htw]
  have hcond : ((d :: ((c' ++ hiddenChar :: R).takeWhile
        fun x => x ≠ hiddenChar)).all fun x => !isLineTerm x) ∧
      ((d :: (c' ++ hiddenChar :: R)).drop
        (d :: ((c' ++ hiddenChar :: R).takeWhile
          fun x => x ≠ hiddenChar)).length).head? = some hiddenChar := by
    constructor
    · rw [hseg]
      rw [List.all_eq_true]
      intro x hx
      simp [hc2 x hx]
    · rw [hseg]
      simp only [List.length_cons]
      rw [show ((d :: (c' ++ hiddenChar :: R)).drop (c'.length + 1))
          = (c' ++ hiddenChar :: R).drop c'.length from rfl]
      rw [List.drop_left]
      rfl
  rw [show (hiddenChar :: ((d :: c') ++ hiddenChar :: R))
      = (hiddenChar :: d :: (c' ++ hiddenChar :: R)) from rfl]
  unfold extractExistingQuotesUsingTemplate
  simp only [List.length_cons]
  rw [extractTF_step_succ ((c' ++ hiddenChar :: R).length + 1) d
    (c' ++ hiddenChar :: R) hcond]
  rw [hseg]
  refine congrArg _ ?_
  have hdrop : (((d :: (c' ++ hiddenChar :: R)).drop
      (d :: c').length).drop 1) = R := by
    simp only [List.length_cons]
    rw [show ((d :: (c' ++ hiddenChar :: R)).drop (c'.length + 1))
        = (c' ++ hiddenChar :: R).drop c'.length from rfl]
    rw [List.drop_left]
    rfl
  rw [hdrop]
  apply extractTF_irrel
  · simp only [List.length_cons, List.length_append]
    omega
  · exact le_refl _

/-! ## Structure of first-occurrence replacement -/

theorem hasPre_eq_append (pat : Str) : ∀ (s : Str), hasPre pat s = true →
    s = pat ++ s.drop pat.length := by
  induction pat with
  | nil => intro s _; rfl
  | cons p ps ih =>
    intro s h
    cases s with
    | nil => simp [hasPre] at h
    | cons c cs =>
      simp only [hasPre, Bool.and_eq_true, decide_eq_true_eq] at h
      obtain ⟨rfl, h2⟩ := h
      simp only [List.length_cons, List.cons_append, List.drop_succ_cons]
      rw [← ih cs h2]

/-- A replacement value with no dollar sign expands to itself. -/
theorem expandRep_no_dollar (m b a : Str) : ∀ (r : Str), '$' ∉ r →
    expandRep m b a r = r := by
  intro r
  induction r with
  | nil => exact fun _ => rfl
  | cons c rest ih =>
    intro h
    have hc : c ≠ '$' := fun e => h (by simp [e])
    have hr : '$' ∉ rest := fun hm => h (by simp [hm])
    rw [expandRep.eq_def]
    dsimp only
    rw [if_neg hc, ih hr]

/-- With a dollar-free replacement, the replacement scan is raw
insertion. -/
theorem replaceFirstGo_no_dollar (pat rep : Str) (h : '$' ∉ rep) :
    ∀ (t before : Str),
    replaceFirstGo pat rep before t = replaceFirstRaw pat rep t := by
  intro t
  induction t with
  | nil =>
    intro before
    simp only [replaceFirstGo, replaceFirstRaw]
    by_cases hp : pat = []
    · rw [if_pos hp, if_pos hp, expandRep_no_dollar _ _ _ rep h]
    · rw [if_neg hp, if_neg hp]
  | cons c rest ih =>
    intro before
    simp only [replaceFirstGo, replaceFirstRaw]
    by_cases hp : hasPre pat (c :: rest) = true
    · rw [if_pos hp, if_pos hp, expandRep_no_dollar _ _ _ rep h]
    · rw [if_neg hp, if_neg hp, ih (before ++ [c])]

/-- JS first-occurrence replacement with a dollar-free replacement value
is raw insertion. -/
theorem replaceFirst_no_dollar (pat rep : Str) (h : '$' ∉ rep) (t : Str) :
    replaceFirstSub pat rep t = replaceFirstRaw pat rep t :=
  replaceFirstGo_no_dollar pat rep h t []

/-- The replacement scan is the identity when the pattern never occurs. -/
theorem replaceFirstGo_skip (pat rep : Str) : ∀ (t : Str),
    subStr pat t = false → ∀ (before : Str),
    replaceFirstGo pat rep before t = t := by
  intro t
  induction t with
  | nil =>
    intro h before
    have hpat : pat ≠ [] := by
      intro hh
      rw [hh] at h
      simp [subStr] at h
    simp only [replaceFirstGo]
    rw [if_neg hpat]
  | cons c rest ih =>
    intro h before
    simp only [subStr] at h
    rw [Bool.or_eq_false_iff] at h
    simp only [replaceFirstGo]
    rw [if_neg (by simp [h.1]), ih h.2 (before ++ [c])]

/-- JS first-occurrence replacement is the identity when the pattern
never occurs in the subject. -/
theorem replaceFirst_skip (pat rep t : Str) (h : subStr pat t = false) :
    replaceFirstSub pat rep t = t :=
  replaceFirstGo_skip pat rep t h []

/-- The replacement scan at the first occurrence of the pattern: the
subject splits as A ++ pat ++ B and every replacement value is inserted
`$`-expanded against that match. -/
theorem replaceFirstGo_split (pat : Str) : ∀ (t : Str),
    subStr pat t = true → ∀ (before : Str), ∃ A B : Str,
      t = A ++ pat ++ B ∧
      ∀ rep : Str, replaceFirstGo pat rep before t =
        A ++ expandRep pat (before ++ A) B rep ++ B := by
  intro t
  induction t with
  | nil =>
    intro h before
    simp only [subStr, List.isEmpty_iff] at h
    subst h
    refine ⟨[], [], rfl, fun rep => ?_⟩
    simp [replaceFirstGo]
  | cons c rest ih =>
    intro h before
    by_cases hp : hasPre pat (c :: rest) = true
    · refine ⟨[], (c :: rest).drop pat.length, ?_, ?_⟩
      · simpa using hasPre_eq_append pat (c :: rest) hp
      · intro rep
        simp only [replaceFirstGo, hp, if_true, List.nil_append,
          List.append_nil]
    · have h2 : subStr pat rest = true := by
        simp only [subStr, Bool.or_eq_true] at h
        rcases h with h | h
        · exact absurd h hp
        · exact h
      obtain ⟨A, B, hAB, hrep⟩ := ih h2 (before ++ [c])
      refine ⟨c :: A, B, by simp [hAB], ?_⟩
      intro rep
      have hstep : replaceFirstGo pat rep before (c :: rest) =
          c :: replaceFirstGo pat rep (before ++ [c]) rest := by
        simp only [replaceFirstGo]
        rw [if_neg hp]
      rw [hstep, hrep rep]
      simp

/-- JS first-occurrence replacement at the first occurrence: the subject
splits as A ++ pat ++ B, and every replacement value is inserted
`$`-expanded against that match. -/
theorem replaceFirst_split (pat t : Str) (h : subStr pat t = true) :
    ∃ A B : Str, t = A ++ pat ++ B ∧
      ∀ rep : Str, replaceFirstSub pat rep t =
        A ++ expandRep pat A B rep ++ B := by
  obtain ⟨A, B, hAB, hrep⟩ := replaceFirstGo_split pat t h []
  exact ⟨A, B, hAB, fun rep => by
    have := hrep rep
    rwa [List.nil_append] at this⟩

theorem replaceFirst_of_subStr (pat : Str) : ∀ (t : Str),
    subStr pat t = true → ∃ A B : Str, t = A ++ pat ++ B ∧
      ∀ rep : Str, replaceFirstRaw pat rep t = A ++ rep ++ B := by
  intro t
  induction t with
  | nil =>
    intro h
    simp only [subStr, List.isEmpty_iff] at h
    subst h
    exact ⟨[], [], rfl, fun rep => by simp [replaceFirstRaw]⟩
  | cons c rest ih =>
    intro h
    by_cases hp : hasPre pat (c :: rest) = true
    · refine ⟨[], (c :: rest).drop pat.length, ?_, ?_⟩
      · simpa using hasPre_eq_append pat (c :: rest) hp
      · intro rep
        simp only [replaceFirstRaw, hp, if_true, List.nil_append]
    · have h2 : subStr pat rest = true := by
        simp only [subStr, Bool.or_eq_true] at h
        rcases h with h | h
        · exact absurd h hp
        · exact h
      obtain ⟨A, B, hAB, hrep⟩ := ih h2
      refine ⟨c :: A, B, by simp [hAB], ?_⟩
      intro rep
      have hstep : replaceFirstRaw pat rep (c :: rest) =
          c :: replaceFirstRaw pat rep rest := by
        simp only [replaceFirstRaw]
        rw [if_neg hp]
      rw [hstep, hrep rep]
      simp

theorem replaceFirst_of_not_subStr (pat rep : Str) : ∀ (t : Str),
    subStr pat t = false → replaceFirstRaw pat rep t = t := by
  intro t
  induction t with
  | nil =>
    intro h
    have hpat : pat ≠ [] := by
      intro hh
      rw [hh] at h
      simp [subStr] at h
    simp [replaceFirstRaw, hpat]
  | cons c rest ih =>
    intro h
    simp only [subStr] at h
    rw [Bool.or_eq_false_iff] at h
    have hstep : replaceFirstRaw pat rep (c :: rest) =
        c :: replaceFirstRaw pat rep rest := by
      simp only [replaceFirstRaw]
      rw [if_neg (by simp [h.1])]
    rw [hstep, ih h.2]

theorem mem_replaceFirst (pat rep : Str) (x : Char) : ∀ (t : Str),
    x ∈ replaceFirstRaw pat rep t → x ∈ t ∨ x ∈ rep := by
  intro t
  induction t with
  | nil =>
    intro hx
    simp only [replaceFirstRaw] at hx
    by_cases hp : pat = []
    · rw [if_pos hp] at hx
      exact Or.inr hx
    · rw [if_neg hp] at hx
      exact absurd hx (List.not_mem_nil x)
  | cons c rest ih =>
    intro hx
    simp only [replaceFirstRaw] at hx
    by_cases hp : hasPre pat (c :: rest) = true
    · rw [if_pos hp] at hx
      rcases List.mem_append.mp hx with hx1 | hx2
      · exact Or.inr hx1
      · exact Or.inl (List.drop_subset _ _ hx2)
    · rw [if_neg hp] at hx
      rcases List.mem_cons.mp hx with rfl | hx2
      · exact Or.inl (List.mem_cons_self x rest)
      · rcases ih hx2 with h1 | h2
        · exact Or.inl (List.mem_cons_of_mem c h1)
        · exact Or.inr h2

theorem noPreInContent : ∀ (d pat Y2 : Str), '\x7b' ∈ pat →
    hiddenChar ∉ pat → '\x7b' ∉ d →
    hasPre pat (d ++ hiddenChar :: Y2) = false := by
  intro d
  induction d with
  | nil =>
    intro pat Y2 hb hH _
    cases pat with
    | nil => exact absurd hb (List.not_mem_nil _)
    | cons p0 ps =>
      simp only [List.nil_append, hasPre, Bool.and_eq_false_iff]
      left
      simp only [decide_eq_false_iff_not]
      intro hh
      exact hH (hh ▸ List.mem_cons_self p0 ps)
  | cons x d1 ih =>
    intro pat Y2 hb hH hd
    cases pat with
    | nil => exact absurd hb (List.not_mem_nil _)
    | cons p0 ps =>
      simp only [List.cons_append, hasPre, Bool.and_eq_false_iff]
      by_cases hpx : p0 = x
      · right
        apply ih ps Y2
        · rcases List.mem_cons.mp hb with heq | hmem
          · exfalso
            apply hd
            rw [heq.trans hpx]
            exact List.mem_cons_self x d1
          · exact hmem
        · exact fun hm => hH (List.mem_cons_of_mem p0 hm)
        · exact fun hm => hd (List.mem_cons_of_mem x hm)
      · left
        simp [hpx]

theorem hasPre_len_le (pat : Str) (hH : hiddenChar ∉ pat) : ∀ (Z W : Str),
    hasPre pat (Z ++ hiddenChar :: W) = true → pat.length ≤ Z.length := by
  induction pat with
  | nil => intro Z W _; simp
  | cons p0 ps ih =>
    intro Z W h
    cases Z with
    | nil =>
      simp only [List.nil_append, hasPre, Bool.and_eq_true,
        decide_eq_true_eq] at h
      exact absurd (h.1 ▸ List.mem_cons_self p0 ps) hH
    | cons z Z1 =>
      simp only [List.cons_append, hasPre, Bool.and_eq_true] at h
      have := ih (fun hm => hH (List.mem_cons_of_mem p0 hm)) Z1 W h.2
      simp only [List.length_cons]
      omega

theorem walkContent (pat v : Str) (hb : '\x7b' ∈ pat)
    (hH : hiddenChar ∉ pat) : ∀ (c Y : Str), '\x7b' ∉ c →
    replaceFirstRaw pat v (c ++ hiddenChar :: Y) =
      c ++ hiddenChar :: replaceFirstRaw pat v Y := by
  intro c
  induction c with
  | nil =>
    intro Y _
    have hp : hasPre pat (hiddenChar :: Y) = false := by
      cases pat with
      | nil => exact absurd hb (List.not_mem_nil _)
      | cons p0 ps =>
        simp only [hasPre, Bool.and_eq_false_iff]
        left
        simp only [decide_eq_false_iff_not]
        intro hh
        exact hH (hh ▸ List.mem_cons_self p0 ps)
    simp only [List.nil_append, replaceFirstRaw, hp, if_false]
    simp
  | cons x c1 ih =>
    intro Y hc
    have hp : hasPre pat ((x :: c1) ++ hiddenChar :: Y) = false :=
      noPreInContent (x :: c1) pat Y hb hH hc
    rw [List.cons_append]
    rw [show ((x :: c1) ++ hiddenChar :: Y : Str)
        = x :: (c1 ++ hiddenChar :: Y) from rfl] at hp
    simp only [replaceFirstRaw, hp, if_false]
    rw [ih Y fun hm => hc (List.mem_cons_of_mem x hm)]
    simp

theorem replaceFirst_block (pat v : Str) (hb : '\x7b' ∈ pat)
    (hH : hiddenChar ∉ pat) (hv : hiddenChar ∉ v) :
    ∀ (X c Y : Str), hiddenChar ∉ X → hiddenChar ∉ Y → '\x7b' ∉ c →
    ∃ X2 Y2 : Str,
      replaceFirstRaw pat v (X ++ hiddenChar :: (c ++ hiddenChar :: Y)) =
        X2 ++ hiddenChar :: (c ++ hiddenChar :: Y2) ∧
      hiddenChar ∉ X2 ∧ hiddenChar ∉ Y2 := by
  intro X
  induction X with
  | nil =>
    intro c Y _ hY hc
    have hp : hasPre pat (hiddenChar :: (c ++ hiddenChar :: Y)) = false := by
      cases pat with
      | nil => exact absurd hb (List.not_mem_nil _)
      | cons p0 ps =>
        simp only [hasPre, Bool.and_eq_false_iff]
        left
        simp only [decide_eq_false_iff_not]
        intro hh
        exact hH (hh ▸ List.mem_cons_self p0 ps)
    refine ⟨[], replaceFirstRaw pat v Y, ?_, List.not_mem_nil _, ?_⟩
    · simp only [List.nil_append, replaceFirstRaw, hp, if_false]
      rw [walkContent pat v hb hH c Y hc]
      simp
    · intro hm
      rcases mem_replaceFirst pat v hiddenChar Y hm with h1 | h2
      · exact hY h1
      · exact hv h2
  | cons a X1 ih =>
    intro c Y hX hY hc
    have haH : a ≠ hiddenChar := by
      intro hh
      exact hX (hh ▸ List.mem_cons_self a X1)
    have hX1 : hiddenChar ∉ X1 := fun hm => hX (List.mem_cons_of_mem a hm)
    by_cases hp : hasPre pat ((a :: X1) ++
        hiddenChar :: (c ++ hiddenChar :: Y)) = true
    · have hlen : pat.length ≤ (a :: X1).length :=
        hasPre_len_le pat hH (a :: X1) (c ++ hiddenChar :: Y) hp
      refine ⟨v ++ (a :: X1).drop pat.length, Y, ?_, ?_, hY⟩
      · rw [show ((a :: X1) ++ hiddenChar :: (c ++ hiddenChar :: Y) : Str)
            = a :: (X1 ++ hiddenChar :: (c ++ hiddenChar :: Y)) from rfl]
        rw [show (a :: (X1 ++ hiddenChar :: (c ++ hiddenChar :: Y)) : Str)
            = (a :: X1) ++ hiddenChar :: (c ++ hiddenChar :: Y) from rfl]
        cases hsplit : a :: X1 with
        | nil => simp at hsplit
        | cons a2 X2 =>
          rw [← hsplit]
          rw [show ((a :: X1) ++ hiddenChar :: (c ++ hiddenChar :: Y) : Str)
              = a :: (X1 ++ hiddenChar :: (c ++ hiddenChar :: Y)) from rfl]
          simp only [replaceFirstRaw]
          rw [if_pos (by
            rw [show (a :: (X1 ++ hiddenChar :: (c ++ hiddenChar :: Y)) : Str)
                = (a :: X1) ++ hiddenChar :: (c ++ hiddenChar :: Y) from rfl]
            exact hp)]
          rw [show (a :: (X1 ++ hiddenChar :: (c ++ hiddenChar :: Y)) : Str)
              = (a :: X1) ++ hiddenChar :: (c ++ hiddenChar :: Y) from rfl]
          rw [List.drop_append_of_le_length hlen]
          simp [List.append_assoc]
      · intro hm
        rcases List.mem_append.mp hm with h1 | h2
        · exact hv h1
        · exact hX (List.drop_subset _ _ h2)
    · rw [show ((a :: X1) ++ hiddenChar :: (c ++ hiddenChar :: Y) : Str)
          = a :: (X1 ++ hiddenChar :: (c ++ hiddenChar :: Y)) from rfl] at hp ⊢
      simp only [replaceFirstRaw, hp, if_false]
      obtain ⟨X2, Y2, heq, hX2, hY2⟩ := ih c Y hX1 hY hc
      refine ⟨a :: X2, Y2, ?_, ?_, hY2⟩
      · rw [heq]
        rfl
      · intro hm
        rcases List.mem_cons.mp hm with rfl | hm2
        · exact haH rfl
        · exact hX2 hm2

/-! ## Shape of rendered marker-mode quote blocks -/

theorem styledContentHidden_none (s : Settings) (q : Quote)
    (hmode : s.quoteColorMode = QuoteColorMode.cmNone) :
    styledContentHidden s q = hiddenChar :: (q.content ++ [hiddenChar]) := by
  unfold styledContentHidden
  rw [hmode]
  simp

theorem renderQuoteTemplate_shape (s : Settings) (q : Quote)
    (hmode : s.quoteColorMode = QuoteColorMode.cmNone)
    (hT : subStr pcContent s.quoteTemplate = true)
    (hTH : hiddenChar ∉ s.quoteTemplate)
    (hcb : '\x7b' ∉ q.content) (hcD : '$' ∉ q.content)
    (hnH : hiddenChar ∉ q.note) (hnD : '$' ∉ q.note)
    (hlH : hiddenChar ∉ q.location) (hlD : '$' ∉ q.location)
    (hclH : hiddenChar ∉ q.color) (hclD : '$' ∉ q.color) :
    ∃ A B : Str, renderQuoteTemplate s q =
      A ++ hiddenChar :: (q.content ++ hiddenChar :: B) ∧
      hiddenChar ∉ A ∧ hiddenChar ∉ B := by
  obtain ⟨A0, B0, hT0, hrep⟩ := replaceFirst_of_subStr pcContent
    s.quoteTemplate hT
  have hA0 : hiddenChar ∉ A0 := by
    intro hm
    exact hTH (hT0 ▸ List.mem_append_left _ (List.mem_append_left _ hm))
  have hB0 : hiddenChar ∉ B0 := by
    intro hm
    exact hTH (hT0 ▸ List.mem_append_right _ hm)
  have hsD : '$' ∉ styledContentHidden s q := by
    rw [styledContentHidden_none s q hmode]
    intro hm
    rcases List.mem_cons.mp hm with heq | hm2
    · exact absurd heq (by decide)
    · rcases List.mem_append.mp hm2 with h1 | h2
      · exact hcD h1
      · rcases List.mem_singleton.mp h2 with heq2
        exact absurd heq2 (by decide)
  have ht1 : replaceFirstSub pcContent (styledContentHidden s q)
      s.quoteTemplate =
      A0 ++ hiddenChar :: (q.content ++ hiddenChar :: B0) := by
    rw [replaceFirst_no_dollar pcContent _ hsD]
    rw [hrep (styledContentHidden s q), styledContentHidden_none s q hmode]
    simp
  have hvnote : hiddenChar ∉ (if q.note ≠ [] then q.note else []) := by
    split
    · exact hnH
    · exact List.not_mem_nil _
  have hvnoteD : '$' ∉ (if q.note ≠ [] then q.note else []) := by
    split
    · exact hnD
    · exact List.not_mem_nil _
  obtain ⟨A1, B1, h1, hA1, hB1⟩ := replaceFirst_block pcNote
    (if q.note ≠ [] then q.note else []) (by decide) (by decide) hvnote
    A0 q.content B0 hA0 hB0 hcb
  obtain ⟨A2, B2, h2, hA2, hB2⟩ := replaceFirst_block pcLocation q.location
    (by decide) (by decide) hlH A1 q.content B1 hA1 hB1 hcb
  have hvcolor : hiddenChar ∉ (if q.color ≠ [] then q.color else []) := by
    split
    · exact hclH
    · exact List.not_mem_nil _
  have hvcolorD : '$' ∉ (if q.color ≠ [] then q.color else []) := by
    split
    · exact hclD
    · exact List.not_mem_nil _
  obtain ⟨A3, B3, h3, hA3, hB3⟩ := replaceFirst_block pcColor
    (if q.color ≠ [] then q.color else []) (by decide) (by decide) hvcolor
    A2 q.content B2 hA2 hB2 hcb
  refine ⟨A3, B3, ?_, hA3, hB3⟩
  unfold renderQuoteTemplate
  dsimp only
  rw [ht1]
  rw [replaceFirst_no_dollar pcNote _ hvnoteD, h1]
  rw [replaceFirst_no_dollar pcLocation _ hlD, h2]
  rw [replaceFirst_no_dollar pcColor _ hvcolorD, h3]

/-! ## Assembling a marker-mode file into marker chunks -/

theorem mem_extractT_chunks : ∀ (chunks : List (Str × Str)) (tail : Str),
    (∀ pc ∈ chunks, hiddenChar ∉ pc.1 ∧ pc.2 ≠ [] ∧
      (∀ ch ∈ pc.2, isLineTerm ch = false) ∧ hiddenChar ∉ pc.2) →
    ∀ pc ∈ chunks, jsTrim pc.2 ∈ extractExistingQuotesUsingTemplate
      (chunks.foldr
        (fun pc acc => pc.1 ++ hiddenChar :: (pc.2 ++ hiddenChar :: acc))
        tail) := by
  intro chunks
  induction chunks with
  | nil => exact fun tail _ pc hpc => absurd hpc (List.not_mem_nil pc)
  | cons hd rest ih =>
    intro tail hcond pc hpc
    obtain ⟨hP, hc1, hc2, hcH⟩ := hcond hd (by simp)
    rw [List.foldr_cons]
    rw [extractT_skip_plain hd.1 hP]
    rw [extractT_block hd.2 hc1 hc2 hcH]
    rcases List.mem_cons.mp hpc with rfl | hmem
    · exact List.mem_cons_self _ _
    · exact List.mem_cons_of_mem _
        (ih tail (fun x hx => hcond x (by simp [hx])) pc hmem)

theorem blocks_assemble (s : Settings)
    (hmode : s.quoteColorMode = QuoteColorMode.cmNone)
    (hT : subStr pcContent s.quoteTemplate = true)
    (hTH : hiddenChar ∉ s.quoteTemplate) :
    ∀ (qs : List Quote),
    (∀ q ∈ qs, '\x7b' ∉ q.content ∧ '$' ∉ q.content ∧
      hiddenChar ∉ q.note ∧ '$' ∉ q.note ∧
      hiddenChar ∉ q.location ∧ '$' ∉ q.location ∧
      hiddenChar ∉ q.color ∧ '$' ∉ q.color) →
    ∀ (header : Str), hiddenChar ∉ header →
    ∃ (chunks : List (Str × Str)) (tail : Str),
      header ++ (qs.map fun q => templQuoteBlock s q).flatten =
        chunks.foldr
          (fun pc acc => pc.1 ++ hiddenChar :: (pc.2 ++ hiddenChar :: acc))
          tail ∧
      chunks.map Prod.snd = qs.map (fun q => q.content) ∧
      (∀ pc ∈ chunks, hiddenChar ∉ pc.1) := by
  intro qs
  induction qs with
  | nil =>
    intro _ header _
    exact ⟨[], header, by simp, rfl, fun pc hpc => absurd hpc
      (List.not_mem_nil pc)⟩
  | cons q rest ih =>
    intro hq header hheader
    obtain ⟨hcb, hcD, hnH, hnD, hlH, hlD, hclH, hclD⟩ := hq q (by simp)
    obtain ⟨A, B, hAB, hA, hB⟩ := renderQuoteTemplate_shape s q hmode hT hTH
      hcb hcD hnH hnD hlH hlD hclH hclD
    obtain ⟨chunks1, tail1, heq1, hmap1, hplain1⟩ :=
      ih (fun x hx => hq x (by simp [hx])) B hB
    refine ⟨(header ++ '\n' :: A, q.content) :: chunks1, tail1, ?_, ?_, ?_⟩
    · rw [List.foldr_cons]
      rw [show ((header ++ '\n' :: A, q.content) : Str × Str).1
          = header ++ '\n' :: A from rfl]
      rw [show ((header ++ '\n' :: A, q.content) : Str × Str).2
          = q.content from rfl]
      rw [← heq1]
      rw [List.map_cons, List.flatten_cons]
      unfold templQuoteBlock
      rw [hAB]
      simp [List.append_assoc]
    · rw [List.map_cons, hmap1]
      rfl
    · intro pc hpc
      rcases List.mem_cons.mp hpc with rfl | hmem
      · intro hm
        rw [show ((header ++ '\n' :: A, q.content) : Str × Str).1
            = header ++ '\n' :: A from rfl] at hm
        rcases List.mem_append.mp hm with h1 | h2
        · exact hheader h1
        · rcases List.mem_cons.mp h2 with heq | h3
          · exact absurd heq.symm (by decide)
          · exact hA h3
      · exact hplain1 pc hmem

theorem content_mem_extractT_full (s : Settings)
    (hmode : s.quoteColorMode = QuoteColorMode.cmNone)
    (hT : subStr pcContent s.quoteTemplate = true)
    (hTH : hiddenChar ∉ s.quoteTemplate) (header : Str)
    (hheader : hiddenChar ∉ header) (qs : List Quote)
    (hqs : ∀ x ∈ qs, x.content ≠ [] ∧
      (∀ ch ∈ x.content, isLineTerm ch = false) ∧
      jsTrim x.content = x.content ∧ hiddenChar ∉ x.content ∧
      '\x7b' ∉ x.content ∧ '$' ∉ x.content ∧
      hiddenChar ∉ x.note ∧ '$' ∉ x.note ∧
      hiddenChar ∉ x.location ∧ '$' ∉ x.location ∧
      hiddenChar ∉ x.color ∧ '$' ∉ x.color)
    (q : Quote) (hq : q ∈ qs) :
    q.content ∈ extractExistingQuotesUsingTemplate
      (header ++ (qs.map fun x => templQuoteBlock s x).flatten) := by
  obtain ⟨chunks, tail, heq, hmap, hplain⟩ := blocks_assemble s hmode hT hTH
    qs (fun x hx => ⟨(hqs x hx).2.2.2.2.1, (hqs x hx).2.2.2.2.2.1,
      (hqs x hx).2.2.2.2.2.2.1, (hqs x hx).2.2.2.2.2.2.2.1,
      (hqs x hx).2.2.2.2.2.2.2.2.1, (hqs x hx).2.2.2.2.2.2.2.2.2.1,
      (hqs x hx).2.2.2.2.2.2.2.2.2.2.1,
      (hqs x hx).2.2.2.2.2.2.2.2.2.2.2⟩) header hheader
  rw [heq]
  have hcontentmem : q.content ∈ chunks.map Prod.snd := by
    rw [hmap]
    exact List.mem_map_of_mem _ hq
  obtain ⟨pc, hpc, hpc2⟩ := List.mem_map.mp hcontentmem
  have hchunkcond : ∀ pc2 ∈ chunks, hiddenChar ∉ pc2.1 ∧ pc2.2 ≠ [] ∧
      (∀ ch ∈ pc2.2, isLineTerm ch = false) ∧ hiddenChar ∉ pc2.2 := by
    intro pc2 hpc2m
    have hsnd : pc2.2 ∈ qs.map fun x => x.content := by
      rw [← hmap]
      exact List.mem_map_of_mem _ hpc2m
    obtain ⟨x, hx, hxeq⟩ := List.mem_map.mp hsnd
    obtain ⟨hb1, hb2, _, hb4, _⟩ := hqs x hx
    exact ⟨hplain pc2 hpc2m, hxeq ▸ hb1, hxeq ▸ hb2, hxeq ▸ hb4⟩
  have := mem_extractT_chunks chunks tail hchunkcond pc hpc
  rw [hpc2] at this
  rw [(hqs q hq).2.2.1] at this
  exact this

/-! ## `applyData` in marker mode: run structure -/

theorem applyItem_absent_templ (s : Settings) (v : Vault) (item : Source)
    (hqt : s.quoteTemplate ≠ [])
    (habs : readFile v (itemFilePath s item) = none) :
    applyItem s v item = vaultWrite v (itemFilePath s item)
      (sourceHeader s item ++
        (item.quotes.map fun q => templQuoteBlock s q).flatten) := by
  unfold applyItem
  dsimp only
  rw [habs]
  rw [if_pos hqt]
  rw [appendQuotesTempl_no_skip]

theorem applyItem_present_skip_templ (s : Settings) (v : Vault)
    (item : Source) (f0 : Str) (hqt : s.quoteTemplate ≠ [])
    (hpres : readFile v (itemFilePath s item) = some f0)
    (hall : ∀ q ∈ item.quotes,
      q.content ∈ extractExistingQuotesUsingTemplate f0) :
    applyItem s v item = vaultWrite v (itemFilePath s item) f0 := by
  unfold applyItem
  dsimp only
  rw [hpres]
  dsimp only
  rw [if_pos hqt]
  rw [if_pos hqt]
  rw [appendQuotesTempl_all_skip s _ _ hall]

theorem foldl_applyItem_run1T (s : Settings) (hqt : s.quoteTemplate ≠ []) :
    ∀ (data : List Source) (v : Vault),
    (data.map fun it => itemFilePath s it).Nodup →
    (∀ item ∈ data, readFile v (itemFilePath s item) = none) →
    ((∀ item ∈ data,
      readFile (data.foldl (fun vv it => applyItem s vv it) v)
        (itemFilePath s item) = some (sourceHeader s item ++
          (item.quotes.map fun q => templQuoteBlock s q).flatten)) ∧
     (∀ p : Str, (∀ item ∈ data, p ≠ itemFilePath s item) →
      readFile (data.foldl (fun vv it => applyItem s vv it) v) p =
        readFile v p)) := by
  intro data
  induction data with
  | nil => exact fun v _ _ => ⟨fun item h => absurd h (List.not_mem_nil item),
      fun p _ => rfl⟩
  | cons it rest ih =>
    intro v hnodup habs
    rw [List.map_cons, List.nodup_cons] at hnodup
    have hpath_notin : itemFilePath s it ∉ rest.map fun x => itemFilePath s x :=
      hnodup.1
    have habs_it : readFile v (itemFilePath s it) = none :=
      habs it (by simp)
    have hwrite := applyItem_absent_templ s v it hqt habs_it
    rw [List.foldl_cons]
    have hself : readFile (applyItem s v it) (itemFilePath s it) =
        some (sourceHeader s it ++
          (it.quotes.map fun q => templQuoteBlock s q).flatten) := by
      rw [hwrite]
      exact readFile_vaultWrite_self v _ _
    have hother : ∀ p : Str, p ≠ itemFilePath s it →
        readFile (applyItem s v it) p = readFile v p := by
      intro p hp
      rw [hwrite]
      exact readFile_vaultWrite_ne v _ _ p hp
    have habs_rest : ∀ item ∈ rest,
        readFile (applyItem s v it) (itemFilePath s item) = none := by
      intro item hmem
      have hne : itemFilePath s item ≠ itemFilePath s it := by
        intro heq
        exact hpath_notin (heq ▸ List.mem_map_of_mem _ hmem)
      rw [hother _ hne]
      exact habs item (by simp [hmem])
    obtain ⟨ihA, ihB⟩ := ih (applyItem s v it) hnodup.2 habs_rest
    constructor
    · intro item hmem
      rcases List.mem_cons.mp hmem with heq | hmem2
      · subst heq
        rw [ihB (itemFilePath s item) ?_]
        · exact hself
        · intro it2 hit2 heq2
          exact hpath_notin (heq2 ▸ List.mem_map_of_mem _ hit2)
      · exact ihA item hmem2
    · intro p hp
      rw [ihB p fun item hmem => hp item (by simp [hmem])]
      exact hother p (hp it (by simp))

theorem foldl_applyItem_run2T (s : Settings) (hqt : s.quoteTemplate ≠ []) :
    ∀ (data : List Source) (v : Vault),
    (∀ item ∈ data, ∃ f0 : Str,
      readFile v (itemFilePath s item) = some f0 ∧
      ∀ q ∈ item.quotes,
        q.content ∈ extractExistingQuotesUsingTemplate f0) →
    ∀ p : Str, readFile (data.foldl (fun vv it => applyItem s vv it) v) p =
      readFile v p := by
  intro data
  induction data with
  | nil => exact fun v _ p => rfl
  | cons it rest ih =>
    intro v hinv p
    obtain ⟨f0, hf0, hall⟩ := hinv it (by simp)
    have hwrite := applyItem_present_skip_templ s v it f0 hqt hf0 hall
    rw [List.foldl_cons]
    have hnoop : ∀ q : Str, readFile (applyItem s v it) q = readFile v q := by
      intro q
      rw [hwrite]
      exact readFile_vaultWrite_noop v _ _ hf0 q
    have hinv_rest : ∀ item ∈ rest, ∃ f1 : Str,
        readFile (applyItem s v it) (itemFilePath s item) = some f1 ∧
        ∀ q ∈ item.quotes,
          q.content ∈ extractExistingQuotesUsingTemplate f1 := by
      intro item hmem
      obtain ⟨f1, hf1, hall1⟩ := hinv item (by simp [hmem])
      exact ⟨f1, by rw [hnoop]; exact hf1, hall1⟩
    rw [ih (applyItem s v it) hinv_rest p]
    exact hnoop p

theorem readFile_applyData_base (s : Settings) (data : List Source)
    (w : Vault) (q : Str) :
    readFile
      (((data.map fun item => firstLetterUppercase item.type).eraseDups).foldl
        (fun vv ty =>
          ensureFolder vv (s.rootFolder ++ str "/" ++ ty ++ str "s/"))
        (ensureFolder w (s.rootFolder ++ str "/"))) q = readFile w q := by
  rw [readFile_foldl_ensureFolder, readFile_ensureFolder]

theorem applyData_as_foldl (s : Settings) (data : List Source) (w : Vault) :
    applyData s w data = data.foldl (fun vv item => applyItem s vv item)
      (((data.map fun item => firstLetterUppercase item.type).eraseDups).foldl
        (fun vv ty =>
          ensureFolder vv (s.rootFolder ++ str "/" ++ ty ++ str "s/"))
        (ensureFolder w (s.rootFolder ++ str "/"))) := rfl

/-- Claim C1 (amended): merging is idempotent and de-duplicates by quote
content whenever the extraction step can recognize the appended blocks
unchanged: with color styling off (`quoteColorMode` `none`), every quote
content nonempty, free of line terminators and unchanged by the JS
whitespace trim, pairwise distinct target file paths that do not yet
exist, and — in marker mode — a marker-free quote template containing
`{{content}}`, a marker-free header, and brace-, marker- and dollar-free
content/note/location/color values (a dollar sign would be `$`-expanded
by the JS replacement), running `applyData` twice with the same sources
list produces byte-identical file content after the second run: the
second run's extraction recognizes every appended quote content, no
quote block is appended twice, and every file of the vault is unchanged
by the second run. -/
theorem C1_merge_idempotent_amended (s : Settings) (v : Vault)
    (data : List Source)
    (hmode : s.quoteColorMode = QuoteColorMode.cmNone)
    (hgood : ∀ item ∈ data, ∀ q ∈ item.quotes, q.content ≠ [] ∧
      (∀ ch ∈ q.content, isLineTerm ch = false) ∧
      jsTrim q.content = q.content)
    (hnodup : (data.map fun it => itemFilePath s it).Nodup)
    (habs : ∀ item ∈ data, readFile v (itemFilePath s item) = none)
    (hcase : s.quoteTemplate = [] ∨
      (subStr pcContent s.quoteTemplate = true ∧
       hiddenChar ∉ s.quoteTemplate ∧
       (∀ item ∈ data, hiddenChar ∉ sourceHeader s item) ∧
       (∀ item ∈ data, ∀ q ∈ item.quotes, hiddenChar ∉ q.content ∧
         '\x7b' ∉ q.content ∧ '$' ∉ q.content ∧
         hiddenChar ∉ q.note ∧ '$' ∉ q.note ∧
         hiddenChar ∉ q.location ∧ '$' ∉ q.location ∧
         hiddenChar ∉ q.color ∧ '$' ∉ q.color))) :
    ∀ p : Str, readFile (applyData s (applyData s v data) data) p =
      readFile (applyData s v data) p := by
  intro p
  rcases hcase with hqt | hmark
  · -- fixed-layout mode
    have habs2 : ∀ item ∈ data,
        readFile (((data.map fun item => firstLetterUppercase
          item.type).eraseDups).foldl
          (fun vv ty =>
            ensureFolder vv (s.rootFolder ++ str "/" ++ ty ++ str "s/"))
          (ensureFolder v (s.rootFolder ++ str "/")))
          (itemFilePath s item) = none := by
      intro item hm
      rw [readFile_applyData_base]
      exact habs item hm
    obtain ⟨h1A, _⟩ := foldl_applyItem_run1 s hqt data _ hnodup habs2
    have hinv : ∀ item ∈ data, ∃ f0 : Str,
        readFile (((data.map fun item => firstLetterUppercase
          item.type).eraseDups).foldl
          (fun vv ty =>
            ensureFolder vv (s.rootFolder ++ str "/" ++ ty ++ str "s/"))
          (ensureFolder (applyData s v data) (s.rootFolder ++ str "/")))
          (itemFilePath s item) = some f0 ∧
        ∀ q ∈ item.quotes, q.content ∈ extractExistingQuotes f0 := by
      intro item hm
      refine ⟨sourceHeader s item ++
        (item.quotes.map fun q => fixedQuoteBlock s q).flatten, ?_, ?_⟩
      · rw [readFile_applyData_base]
        rw [applyData_as_foldl]
        exact h1A item hm
      · intro q hq
        obtain ⟨hc1, hc2, hc3⟩ := hgood item hm q hq
        exact content_mem_extract_full s hmode (sourceHeader s item)
          item.quotes q hq hc1 hc2 hc3
    rw [applyData_as_foldl s data (applyData s v data)]
    rw [foldl_applyItem_run2 s hqt data _ hinv p]
    rw [readFile_applyData_base]
  · -- marker mode
    obtain ⟨hT, hTH, hheadH, hquoteH⟩ := hmark
    have hqt : s.quoteTemplate ≠ [] := by
      intro hh
      rw [hh] at hT
      unfold subStr at hT
      simp [pcContent, str] at hT
    have habs2 : ∀ item ∈ data,
        readFile (((data.map fun item => firstLetterUppercase
          item.type).eraseDups).foldl
          (fun vv ty =>
            ensureFolder vv (s.rootFolder ++ str "/" ++ ty ++ str "s/"))
          (ensureFolder v (s.rootFolder ++ str "/")))
          (itemFilePath s item) = none := by
      intro item hm
      rw [readFile_applyData_base]
      exact habs item hm
    obtain ⟨h1A, _⟩ := foldl_applyItem_run1T s hqt data _ hnodup habs2
    have hinv : ∀ item ∈ data, ∃ f0 : Str,
        readFile (((data.map fun item => firstLetterUppercase
          item.type).eraseDups).foldl
          (fun vv ty =>
            ensureFolder vv (s.rootFolder ++ str "/" ++ ty ++ str "s/"))
          (ensureFolder (applyData s v data) (s.rootFolder ++ str "/")))
          (itemFilePath s item) = some f0 ∧
        ∀ q ∈ item.quotes,
          q.content ∈ extractExistingQuotesUsingTemplate f0 := by
      intro item hm
      refine ⟨sourceHeader s item ++
        (item.quotes.map fun q => templQuoteBlock s q).flatten, ?_, ?_⟩
      · rw [readFile_applyData_base]
        rw [applyData_as_foldl]
        exact h1A item hm
      · intro q hq
        apply content_mem_extractT_full s hmode hT hTH (sourceHeader s item)
          (hheadH item hm) item.quotes ?_ q hq
        intro x hx
        obtain ⟨hc1, hc2, hc3⟩ := hgood item hm x hx
        obtain ⟨hm1, hm2, hm2D, hm3, hm3D, hm4, hm4D, hm5, hm5D⟩ :=
          hquoteH item hm x hx
        exact ⟨hc1, hc2, hc3, hm1, hm2, hm2D, hm3, hm3D, hm4, hm4D,
          hm5, hm5D⟩
    rw [applyData_as_foldl s data (applyData s v data)]
    rw [foldl_applyItem_run2T s hqt data _ hinv p]
    rw [readFile_applyData_base]

/-- Claim C1 (counterexample): with the default settings (fixed layout,
no quote template) and one quote whose content is the empty string, the
second `applyData` run appends the quote block again — the merged file is
not byte-identical after the second run, because the extraction regex
`/>\s(.+?)\n/` can never recognize an empty content. -/
theorem C1_counterexample :
    readFile
      (applyData DEFAULT_SETTINGS
        (applyData DEFAULT_SETTINGS exVault0 [exSourceEmptyQuote])
        [exSourceEmptyQuote]) (str "Unearthed/Books/t.md") ≠
    readFile (applyData DEFAULT_SETTINGS exVault0 [exSourceEmptyQuote])
      (str "Unearthed/Books/t.md") := by
  decide

/-- Witness for the amended claim C1 at a concrete input: one source with
one recognizable quote, merged twice from the empty vault, leaves the file
unchanged on the second run. -/
theorem C1_merge_idempotent_amended_witness :
    readFile
      (applyData exSettingsNone
        (applyData exSettingsNone exVault0 [exSourceHello]) [exSourceHello])
      (str "Unearthed/Books/t.md") =
    readFile (applyData exSettingsNone exVault0 [exSourceHello])
      (str "Unearthed/Books/t.md") :=
  C1_merge_idempotent_amended exSettingsNone exVault0 [exSourceHello]
    (by decide) (by decide) (by decide) (by decide) (Or.inl rfl)
    (str "Unearthed/Books/t.md")

/-! ## Claim C2: existing file text is preserved as a byte-for-byte prefix -/

theorem applyItem_appends (s : Settings) (item : Source) (v : Vault)
    (p c : Str) (h : readFile v p = some c) :
    ∃ d : Str, readFile (applyItem s v item) p = some (c ++ d) := by
  by_cases hp : itemFilePath s item = p
  · subst hp
    unfold applyItem
    dsimp only
    rw [h]
    dsimp only
    by_cases hqt : s.quoteTemplate ≠ []
    · rw [if_pos hqt, if_pos hqt]
      refine ⟨appendQuotesTempl s (extractExistingQuotesUsingTemplate c) []
        item.quotes, ?_⟩
      have hshift : appendQuotesTempl s (extractExistingQuotesUsingTemplate c)
          c item.quotes = c ++ appendQuotesTempl s
            (extractExistingQuotesUsingTemplate c) [] item.quotes := by
        have h0 := appendQuotesTempl_append s
          (extractExistingQuotesUsingTemplate c) item.quotes c []
        rw [List.append_nil] at h0
        exact h0
      rw [hshift]
      exact readFile_vaultWrite_self v _ _
    · rw [if_neg hqt, if_neg hqt]
      refine ⟨appendQuotesFixed s (extractExistingQuotes c) []
        item.quotes, ?_⟩
      have hshift : appendQuotesFixed s (extractExistingQuotes c)
          c item.quotes = c ++ appendQuotesFixed s
            (extractExistingQuotes c) [] item.quotes := by
        have h0 := appendQuotesFixed_append s (extractExistingQuotes c)
          item.quotes c []
        rw [List.append_nil] at h0
        exact h0
      rw [hshift]
      exact readFile_vaultWrite_self v _ _
  · refine ⟨[], ?_⟩
    rw [List.append_nil]
    unfold applyItem
    dsimp only
    rw [readFile_vaultWrite_ne v _ _ p fun hh => hp hh.symm]
    exact h

theorem foldl_applyItem_appends (s : Settings) (data : List Source) :
    ∀ (v : Vault) (p c : Str), readFile v p = some c →
    ∃ d : Str, readFile (data.foldl (fun vv it => applyItem s vv it) v) p =
      some (c ++ d) := by
  induction data with
  | nil => exact fun v p c h => ⟨[], by simpa using h⟩
  | cons it rest ih =>
    intro v p c h
    obtain ⟨d1, h1⟩ := applyItem_appends s it v p c h
    obtain ⟨d2, h2⟩ := ih (applyItem s v it) p (c ++ d1) h1
    refine ⟨d1 ++ d2, ?_⟩
    rw [List.foldl_cons, h2, List.append_assoc]

/-- Claim C2: for every source file that already exists, `applyData` never
truncates or reorders it — the written content has the entire previous
file text as a byte-for-byte prefix, with only newly appended quote blocks
after it (for every path in the vault, in either extraction mode). -/
theorem C2_applyData_preserves_existing (s : Settings) (data : List Source)
    (v : Vault) (p c : Str) (h : readFile v p = some c) :
    ∃ d : Str, readFile (applyData s v data) p = some (c ++ d) := by
  rw [applyData_as_foldl]
  apply foldl_applyItem_appends
  rw [readFile_applyData_base]
  exact h

/-- Witness for claim C2 at a concrete input: the pre-existing file text
`"OLD TEXT\n"` is a prefix of the merged file. -/
theorem C2_applyData_preserves_existing_witness :
    ∃ d : Str,
      readFile (applyData DEFAULT_SETTINGS exVaultOld [exSourceHello])
        (str "Unearthed/Books/t.md") = some (str "OLD TEXT\n" ++ d) :=
  C2_applyData_preserves_existing DEFAULT_SETTINGS [exSourceHello] exVaultOld
    (str "Unearthed/Books/t.md") (str "OLD TEXT\n") (by decide)

/-! ## Claim C3: tag files are create-once -/

theorem readFile_skip_or_create (v : Vault) (fp content p c : Str)
    (h : readFile v p = some c) :
    readFile (if (readFile v fp).isSome then v else vaultWrite v fp content)
      p = some c := by
  by_cases hf : (readFile v fp).isSome
  · rw [if_pos hf]
    exact h
  · rw [if_neg hf]
    have hne : p ≠ fp := by
      intro hh
      subst hh
      rw [h] at hf
      simp at hf
  
    rw [readFile_vaultWrite_ne v fp content p hne]
    exact h

theorem applyTagItem_preserves (s : Settings) (m : List (Str × Str))
    (parentFolderPath : Str) (v : Vault) (tag : Tag) (p c : Str)
    (h : readFile v p = some c) :
    readFile (applyTagItem s m parentFolderPath v tag) p = some c := by
  unfold applyTagItem
  dsimp only
  exact readFile_skip_or_create v _ _ p c h

/-- Claim C3: `applyTags` never modifies or rewrites an existing file —
in particular a tag whose resolved Tags-folder path already holds a file is
skipped entirely, so that file's content survives every later sync
unchanged, even if the tag's description or source ids changed remotely. -/
theorem C3_applyTags_create_once (s : Settings) (m : List (Str × Str))
    (v : Vault) (tags : List Tag) (p c : Str)
    (h : readFile v p = some c) :
    readFile (applyTags s m v tags) p = some c := by
  unfold applyTags
  dsimp only
  have hbase : readFile (ensureFolder v (s.rootFolder ++ str "/Tags/")) p
      = some c := by
    rw [readFile_ensureFolder]
    exact h
  generalize hv1 : ensureFolder v (s.rootFolder ++ str "/Tags/") = v1 at hbase
  clear hv1 h
  induction tags generalizing v1 with
  | nil => exact hbase
  | cons tg rest ih =>
    rw [List.foldl_cons]
    exact ih _ (applyTagItem_preserves s m _ v1 tg p c hbase)

/-- Witness for claim C3 at a concrete input: an existing tag file survives
a second `applyTags` run with an updated description unchanged. -/
theorem C3_applyTags_create_once_witness :
    readFile (applyTags DEFAULT_SETTINGS [] exVaultTagExisting [exTagGrowth2])
      (str "Unearthed/Tags/growth.md") = some (str "# Growth\n\n") :=
  C3_applyTags_create_once DEFAULT_SETTINGS [] exVaultTagExisting
    [exTagGrowth2] (str "Unearthed/Tags/growth.md") (str "# Growth\n\n")
    (by decide)

/-! ## Claim C4: tag filename collisions -/

/-- Claim C4 (counterexample): two tags titled Growth do NOT resolve to
`growth.md` and `growth-1.md` — the collision check scans only non-Tags
folders, so the second tag resolves to the same `growth.md` path, is
treated as already materialized and is skipped: no `growth-1.md` exists
after the run. -/
theorem C4_counterexample :
    readFile (applyTags DEFAULT_SETTINGS [] exVaultRoot
        [exTagGrowth1, exTagGrowth2]) (str "Unearthed/Tags/growth-1.md")
      = none ∧
    readFile (applyTags DEFAULT_SETTINGS [] exVaultRoot
        [exTagGrowth1, exTagGrowth2]) (str "Unearthed/Tags/growth.md")
      = some (str "# Growth\n\n") := by
  constructor
  · decide
  · decide

/-- Claim C4 (amended): numeric suffixing applies only to collisions with
files outside the Tags folder: when the single (hence last-scanned)
non-Tags subfolder holds `<name>.md` but not `<name>-1.md`, `fileExists`
returns `<name>-1`.  Two tags with the same title produce one tag file:
the second tag resolves to the occupied Tags path and is skipped, so no
`-1` file is created for it. -/
theorem C4_tag_collision_amended :
    (∀ (s : Settings) (v : Vault) (name F : Str),
      (listFolders s v).filter (fun f => f ≠ s.rootFolder ++ str "/Tags")
        = [F] →
      (F ++ str "/" ++ name ++ str ".md") ∈ (listDir v F).files →
      (F ++ str "/" ++ name ++ str "-1.md") ∉ (listDir v F).files →
      fileExists s v name = name ++ str "-1") ∧
    readFile (applyTags DEFAULT_SETTINGS [] exVaultRoot
        [exTagGrowth1, exTagGrowth2]) (str "Unearthed/Tags/growth.md")
      = some (str "# Growth\n\n") ∧
    (applyTags DEFAULT_SETTINGS [] exVaultRoot
        [exTagGrowth1, exTagGrowth2]).files.map Prod.fst
      = [str "Unearthed/Tags/growth.md"] := by
  refine ⟨?_, by decide, by decide⟩
  intro s v name F hfilter hmem hnotmem
  unfold fileExists
  rw [hfilter]
  have hname1 : name ++ str "-" ++ natToStr 1 = name ++ str "-1" := by
    rw [List.append_assoc]
    rfl
  have hflat : F ++ str "/" ++ (name ++ str "-1") ++ str ".md"
      = F ++ str "/" ++ name ++ str "-1.md" := by
    have hlit : str "-1" ++ str ".md" = str "-1.md" := rfl
    simp only [List.append_assoc]
    rw [← hlit]
  have hnm : (F ++ str "/" ++ (name ++ str "-1") ++ str ".md")
      ∉ (listDir v F).files := by
    rw [hflat]
    exact hnotmem
  simp only [List.getLast?_singleton]
  simp only [fileExistsGo]
  rw [if_pos hmem]
  simp only [bumpNameF]
  rw [hname1]
  rw [if_neg hnm]
  simp

/-- Witness for the amended claim C4 at a concrete input: a source file
`Books/growth.md` outside the Tags folder forces the suffixed name
`growth-1`. -/
theorem C4_tag_collision_amended_witness :
    fileExists DEFAULT_SETTINGS exVaultBooks (str "growth")
      = str "growth" ++ str "-1" :=
  C4_tag_collision_amended.1 DEFAULT_SETTINGS exVaultBooks (str "growth")
    (str "Unearthed/Books") (by decide) (by decide) (by decide)

/-! ## Claim C5: placeholder replacement -/

/-- Claim C5 (counterexample): rendering does NOT replace every literal
occurrence of a placeholder — a quote template holding `{{note}}` twice
renders with the second occurrence left literal, because JS
`String.prototype.replace` with a string pattern replaces only the first
occurrence. -/
theorem C5_counterexample :
    renderQuoteTemplate exSettingsDupNote exQuoteNoteX
        ≠ str "x x" ∧
    renderQuoteTemplate exSettingsDupNote exQuoteNoteX
        = str "x \x7b\x7bnote\x7d\x7d" := by
  constructor
  · decide
  · decide

/-- Claim C5 (amended): each recognized placeholder in the quote and
daily-reflection templates is substituted by a single first-occurrence JS
string replacement — later duplicate occurrences stay literal — with an
absent or falsy field substituting the empty string and `$`-sequences in
the substituted value expanded by the JS replacement rules; the filename
render and the source template's seven plain keys use global regexes that
replace every occurrence, and the source template's createdAt loop
substitutes each matched placeholder in turn. -/
theorem C5_first_occurrence_amended :
    (∀ (s : Settings) (q : Quote),
      subStr pcContent s.quoteTemplate = false →
      subStr pcNote s.quoteTemplate = true →
      ∃ A B : Str, s.quoteTemplate = A ++ pcNote ++ B ∧
        renderQuoteTemplate s q =
          replaceFirstSub pcColor (if q.color ≠ [] then q.color else [])
            (replaceFirstSub pcLocation q.location
              (A ++ expandRep pcNote A B
                (if q.note ≠ [] then q.note else []) ++ B))) ∧
    renderedReflection exSettingsReflDup [] exRefl
      = str "n \x7b\x7bnote\x7d\x7d" ∧
    renderFileName exSettingsTitleTwice exSourceHello = str "t-t" ∧
    renderSourceNonDateKeys exSourceHello
      (str "\x7b\x7btitle\x7d\x7d \x7b\x7btitle\x7d\x7d") = str "t t" ∧
    renderSourceTemplate exSettingsCreatedTwice exSourceCreated
      = some (str "d d") := by
  refine ⟨?_, by decide, by decide, by decide, by decide⟩
  intro s q hnc hsub
  obtain ⟨A, B, hAB, hrep⟩ := replaceFirst_split pcNote s.quoteTemplate hsub
  refine ⟨A, B, hAB, ?_⟩
  unfold renderQuoteTemplate
  dsimp only
  rw [replaceFirst_skip pcContent (styledContentHidden s q) s.quoteTemplate
    hnc]
  rw [hrep (if q.note ≠ [] then q.note else [])]

/-- Witness for the amended claim C5 at a concrete input: the duplicate
`{{note}}` template decomposes around its first occurrence. -/
theorem C5_first_occurrence_amended_witness :
    ∃ A B : Str, exSettingsDupNote.quoteTemplate = A ++ pcNote ++ B ∧
      renderQuoteTemplate exSettingsDupNote exQuoteNoteX =
        replaceFirstSub pcColor
          (if exQuoteNoteX.color ≠ [] then exQuoteNoteX.color else [])
          (replaceFirstSub pcLocation exQuoteNoteX.location
            (A ++ expandRep pcNote A B
              (if exQuoteNoteX.note ≠ [] then exQuoteNoteX.note else [])
              ++ B)) :=
  C5_first_occurrence_amended.1 exSettingsDupNote exQuoteNoteX (by decide)
    (by decide)

/-! ## Claim C6: once-per-day daily reflection -/

/-- Claim C6: the daily-reflection injection is once-per-day idempotent —
on an existing daily note that does not yet hold a reflection, the first
call appends the marker-wrapped rendered block after the existing text,
and a second call on the resulting vault detects the block (marker scan
with a template configured, else the literal heading check) and performs
no write. -/
theorem C6_reflection_once_per_day (s : Settings) (m : List (Str × Str))
    (path : Str) (r : DailyReflection) (v : Vault) (c0 : Str)
    (h0 : readFile v path = some c0)
    (hnot : detectReflection s c0 = false) :
    readFile (appendToDailyNote s m path r v) path =
      some (c0 ++ hiddenChar ::
        (renderedReflection s m r ++ [hiddenChar])) ∧
    appendToDailyNote s m path r (appendToDailyNote s m path r v) =
      appendToDailyNote s m path r v := by
  have h1 : appendToDailyNote s m path r v =
      vaultWrite v path
        (c0 ++ hiddenChar :: (renderedReflection s m r ++ [hiddenChar])) := by
    unfold appendToDailyNote
    rw [h0]
    dsimp only
    rw [hnot]
    simp
  have h2 : readFile (appendToDailyNote s m path r v) path =
      some (c0 ++ hiddenChar ::
        (renderedReflection s m r ++ [hiddenChar])) := by
    rw [h1, readFile_vaultWrite_self]
  refine ⟨h2, ?_⟩
  have hdet : detectReflection s
      (c0 ++ hiddenChar :: (renderedReflection s m r ++ [hiddenChar]))
        = true := by
    unfold detectReflection
    by_cases ht : s.dailyReflectionTemplate ≠ []
    · rw [if_pos ht]
      unfold extractExistingDailyReflectionUsingTemplate
      rw [if_neg ht]
      unfold hasHiddenPair
      simp only [List.countP_append, List.countP_cons, decide_eq_true_eq,
        List.countP_nil, if_true]
      omega
    · rw [if_neg ht]
      rw [not_not] at ht
      have hrr : renderedReflection s m r = dailyReflectionFixed s m r := by
        unfold renderedReflection
        rw [if_neg (by simp [ht])]
      rw [hrr]
      unfold dailyReflectionFixed
      have := subStr_self_mid (str "## Daily Reflection")
        (c0 ++ hiddenChar :: str "\n---\n")
        ((str "\n\n> \"" ++ styledReflectionQuote s r ++ str "\"\n\n**" ++
          firstLetterUppercase r.type ++ str ":** [[" ++
          reflectionSourceFile m r ++ str "]]\n**Author:** [[" ++ r.author ++
          str "]]\n**Location:** " ++ r.location ++ str "\n\n**Note:** " ++
          r.note ++ str "\n\n---\n") ++ [hiddenChar])
      simpa [List.append_assoc] using this
  have key : ∀ w, readFile w path =
      some (c0 ++ hiddenChar :: (renderedReflection s m r ++ [hiddenChar])) →
      appendToDailyNote s m path r w = w := by
    intro w hw
    unfold appendToDailyNote
    rw [hw]
    dsimp only
    rw [hdet]
    simp
  exact key _ h2

/-- Witness for claim C6 at a concrete daily note. -/
theorem C6_reflection_once_per_day_witness :
    readFile
        (appendToDailyNote exSettingsNone [] (str "Daily Notes/2024-01-01.md")
          exRefl exVaultDaily)
        (str "Daily Notes/2024-01-01.md") =
      some (str "hello" ++ hiddenChar ::
        (renderedReflection exSettingsNone [] exRefl ++ [hiddenChar])) ∧
    appendToDailyNote exSettingsNone [] (str "Daily Notes/2024-01-01.md")
        exRefl
        (appendToDailyNote exSettingsNone [] (str "Daily Notes/2024-01-01.md")
          exRefl exVaultDaily) =
      appendToDailyNote exSettingsNone [] (str "Daily Notes/2024-01-01.md")
        exRefl exVaultDaily :=
  C6_reflection_once_per_day exSettingsNone [] (str "Daily Notes/2024-01-01.md")
    exRefl exVaultDaily (str "hello") (by decide) (by decide)

/-! ## Claim C7: safe filename derivation -/

/-- Claim C7: the safe-filename deriver matches the worked examples —
`"My: Book/Title?"` with lowercase and `-` replacement gives
`"my-book-title"`, `"  Spaces   Here  "` with default options gives
`"spaces-here"`, and a control character (code point below 32) is replaced
like a reserved character. -/
theorem C7_safe_filename_examples :
    toSafeFileName DEFAULT_SETTINGS (str "My: Book/Title?")
        ⟨some (str "-"), some true, none, none⟩ = str "my-book-title" ∧
    toSafeFileName DEFAULT_SETTINGS (str "  Spaces   Here  ")
        = str "spaces-here" ∧
    toSafeFileName DEFAULT_SETTINGS (str "a\x01b") = str "a-b" := by
  refine ⟨?_, ?_, ?_⟩
  · decide
  · decide
  · decide

/-! ## Claim C8: connectivity failures are vault-atomic -/

/-- Claim C8: if the connect handshake fails (request error or non-200
status with no cached secret) or the sources fetch fails, `syncData`
aborts before any vault operation — the vault is returned exactly as it
was, and the cycle reports failure. -/
theorem C8_connectivity_failure_atomic (s : Settings) (o : FetchOutcomes)
    (b : Bool) (v : Vault)
    (h : checkConnection s o.connect = none ∨ o.sources = none) :
    (syncData s o b v).vault = v ∧ (syncData s o b v).ok = false := by
  unfold syncData
  rcases h with h | h
  · rw [h]
    exact ⟨rfl, rfl⟩
  · rw [h]
    cases checkConnection s o.connect
    · exact ⟨rfl, rfl⟩
    · exact ⟨rfl, rfl⟩

/-- Witness for claim C8: a failed sources fetch leaves a nonempty vault
untouched. -/
theorem C8_connectivity_failure_atomic_witness :
    (syncData DEFAULT_SETTINGS exOutcomesNoSources true exVaultOld).vault
        = exVaultOld ∧
    (syncData DEFAULT_SETTINGS exOutcomesNoSources true exVaultOld).ok
        = false :=
  C8_connectivity_failure_atomic DEFAULT_SETTINGS exOutcomesNoSources true
    exVaultOld (Or.inr rfl)

/-! ## Claim C9: source template without a createdAt placeholder -/

/-- Claim C9: when a source template is configured but, after the plain key
substitutions, holds no `createdAt`-family placeholder, the template reduce
returns `undefined` and the `?? ""` fallback makes the header empty — a
newly created source file for a quote-less source is written with empty
content, losing the template's literal text and the already-substituted
fields. -/
theorem C9_missing_createdAt_empty_header (s : Settings) (item : Source)
    (v : Vault)
    (ht : s.sourceTemplate ≠ [])
    (hm : createdAtMatches (renderSourceNonDateKeys item s.sourceTemplate)
      = [])
    (hq : item.quotes = [])
    (habs : readFile v (itemFilePath s item) = none) :
    renderSourceTemplate s item = none ∧
    readFile (applyData s v [item]) (itemFilePath s item) = some [] := by
  have hrt : renderSourceTemplate s item = none := by
    unfold renderSourceTemplate
    dsimp only
    rw [if_pos hm]
  have hsh : sourceHeader s item = [] := by
    unfold sourceHeader
    dsimp only
    rw [if_pos ht, hrt]
    rfl
  refine ⟨hrt, ?_⟩
  rw [applyData_as_foldl]
  rw [List.foldl_cons, List.foldl_nil]
  have habs2 : readFile
      ((([item].map fun it => firstLetterUppercase it.type).eraseDups).foldl
        (fun vv ty =>
          ensureFolder vv (s.rootFolder ++ str "/" ++ ty ++ str "s/"))
        (ensureFolder v (s.rootFolder ++ str "/")))
      (itemFilePath s item) = none :=
    (readFile_applyData_base s [item] v (itemFilePath s item)).trans habs
  by_cases hqt : s.quoteTemplate = []
  · rw [applyItem_absent s _ item hqt habs2]
    rw [hq, hsh, readFile_vaultWrite_self]
    simp
  · rw [applyItem_absent_templ s _ item hqt habs2]
    rw [hq, hsh, readFile_vaultWrite_self]
    simp

/-- Witness for claim C9 at a concrete template `# {{title}}`. -/
theorem C9_missing_createdAt_empty_header_witness :
    renderSourceTemplate exSettingsTemplNoDate exSourceNoQuotes = none ∧
    readFile (applyData exSettingsTemplNoDate exVault0 [exSourceNoQuotes])
        (itemFilePath exSettingsTemplNoDate exSourceNoQuotes) = some [] :=
  C9_missing_createdAt_empty_header exSettingsTemplNoDate exSourceNoQuotes
    exVault0 (by decide) (by decide) rfl (by decide)

/-! ## Claim C10: tag-fetch failures are swallowed -/

/-- Claim C10: `fetchTags` never propagates an error — a request error or
an unsuccessful response yields the empty list, so a tags-endpoint
failure silently skips tag linking while the same `syncData` cycle still
completes and writes the fetched source files. -/
theorem C10_fetchTags_swallows_errors (s : Settings) (o : FetchOutcomes)
    (v : Vault) (data : List Source) (tl : List Tag)
    (hs : o.sources = some data)
    (htags : o.tags = none ∨ o.tags = some (false, tl))
    (hsec : s.secret ≠ []) :
    fetchTags o.tags = [] ∧
    (syncData s o true v).ok = true ∧
    (syncData s o true v).vault =
      (if 0 < data.length then applyData s v data else v) := by
  have hft : fetchTags o.tags = [] := by
    rcases htags with h | h <;> rw [h] <;> rfl
  have hcc : checkConnection s o.connect = some s := by
    unfold checkConnection
    rw [if_pos hsec]
  have hsync : syncData s o true v =
      ⟨true, s,
        (if 0 < data.length ∧ (true : Bool) then applyData s v data else v),
        (if 0 < data.length then buildFileNameMap s data else [])⟩ := by
    unfold syncData
    rw [hcc, hs]
    dsimp only
    rw [hft]
    rw [if_neg (by simp)]
  refine ⟨hft, ?_, ?_⟩
  · rw [hsync]
  · rw [hsync]
    dsimp only
    by_cases hd : 0 < data.length
    · rw [if_pos ⟨hd, rfl⟩, if_pos hd]
    · rw [if_neg (fun hh => hd hh.1), if_neg hd]

/-- Witness for claim C10: an unsuccessful tags response with one fetched
source. -/
theorem C10_fetchTags_swallows_errors_witness :
    fetchTags exOutcomesTagsFail.tags = [] ∧
    (syncData exSettingsSecret exOutcomesTagsFail true exVault0).ok
        = true ∧
    (syncData exSettingsSecret exOutcomesTagsFail true exVault0).vault =
      (if 0 < ([exSourceHello] : List Source).length then
        applyData exSettingsSecret exVault0 [exSourceHello] else exVault0) :=
  C10_fetchTags_swallows_errors exSettingsSecret exOutcomesTagsFail exVault0
    [exSourceHello] [exTagGrowth1] rfl (Or.inr rfl) (by decide)
